import Mathlib

/-!
Next-fit allocator (`nextFit.h`).

A shallow embedding of the block-list allocator of `nextFit.h`.

* The C heap of `Element` nodes is a partial map from node addresses to node
  contents; `malloc` hands out the address `brk` and `free` empties a cell.
* A C call either returns (`Result.ok`), performs an undefined memory access
  (`Result.fault`: a NULL, freed or never assigned pointer is dereferenced), or
  is still running when the iteration budget is used up (`Result.diverge`).
* Sizes are natural numbers: the declarations of `Element` and of the global
  `memory` live in `memoryStructure.h`, which is not part of the sources at
  hand, so no bit width is known for them. The one subtraction on a counter,
  `memory.bytesFree -= allocated->size`, follows the test
  `memory.bytesFree < requested` and takes away exactly `requested`.
-/

namespace NextFit

/-- Outcome of a call: it returned, it made an undefined memory access, or it
had not returned when the iteration budget ran out. -/
inductive Result (α : Type) where
  | ok (a : α)
  | fault
  | diverge
deriving DecidableEq, Repr

/-- Sequencing of calls. -/
def Result.bind {α β : Type} (r : Result α) (f : α → Result β) : Result β :=
  match r with
  | .ok a => f a
  | .fault => .fault
  | .diverge => .diverge

instance : Monad Result where
  pure := Result.ok
  bind := Result.bind

/-- Modelled from the spec: the `Element` list node of `memoryStructure.h`
(size in bytes, allocation flag, start address in the pool, list links).
A link is `none` for NULL and `some a` for the node at address `a`. -/
structure Element where
  size : Nat
  alloc : Nat
  ptr : Nat
  prev : Option Nat
  next : Option Nat
deriving DecidableEq, Repr

/-- Node storage: address to contents, `none` where no live node is. -/
abbrev Heap := Nat → Option Element

/-- Modelled from the spec: the global `memory` of `memoryStructure.h`
(`memPool.memStart`, `memPool.size`, `head`, `tail`, the cursor `next`,
`bytesFree`), together with the node storage and the next fresh node
address. -/
structure Memory where
  memStart : Option Nat
  poolSize : Nat
  head : Option Nat
  tail : Option Nat
  next : Option Nat
  bytesFree : Nat
  heap : Heap
  brk : Nat

/-- Write a node. -/
def store (h : Heap) (a : Nat) (e : Element) : Heap :=
  fun x => if x = a then some e else h x

/-- The cell handed back by `free`. -/
def release (h : Heap) (a : Nat) : Heap :=
  fun x => if x = a then none else h x

/-- Read the node a non-NULL pointer refers to. -/
def load (h : Heap) (a : Nat) : Result Element :=
  match h a with
  | some e => .ok e
  | none => .fault

/-- Read through a pointer that may be NULL. -/
def deref (p : Option Nat) : Result Nat :=
  match p with
  | some a => .ok a
  | none => .fault

/-- Modelled from the spec: `clean()` of `memoryStructure.h`, the teardown
collaborator: it releases the pool and every node and resets the state to
uninitialised. -/
def clean (m : Memory) : Memory :=
  { memStart := none, poolSize := 0, head := none, tail := none, next := none,
    bytesFree := 0, heap := fun _ => none, brk := m.brk }

/-- `nextinit(size)`. `base` is the address `malloc(size)` returns for the
pool; `junk` is the content of the node cell as `malloc` returns it: the C
code assigns `size`, `alloc` and `ptr` only, the two links keep what the
cell held. -/
def nextinit (junk : Element) (base : Nat) (size : Nat) (m : Memory) : Memory :=
  if size < 1 then m
  else
    let m0 := if m.memStart ≠ none then clean m else m
    let node := m0.brk
    { memStart := some base
      poolSize := size
      head := some node
      tail := some node
      next := some node
      bytesFree := size
      heap := store m0.heap node { junk with size := size, alloc := 0, ptr := base }
      brk := m0.brk + 1 }

/-- `allocateBlock(space, size)`: returns the state and the returned
`Element*`. -/
def allocateBlock (space : Nat) (size : Nat) (m : Memory) :
    Result (Memory × Option Nat) := do
  let sp ← load m.heap space
  if sp.size > size then
    let newElement := m.brk
    let h1 := store m.heap newElement
      { size := size, alloc := 1, ptr := sp.ptr, prev := sp.prev, next := some space }
    let sp1 ← load h1 space
    let h2 := store h1 space
      { sp1 with prev := some newElement, ptr := sp1.ptr + size, size := sp1.size - size }
    let ne ← load h2 newElement
    match ne.prev with
    | some p =>
      let pe ← load h2 p
      .ok ({ m with heap := store h2 p { pe with next := some newElement },
                    brk := m.brk + 1 }, some newElement)
    | none =>
      .ok ({ m with heap := h2, tail := some newElement, brk := m.brk + 1 },
        some newElement)
  else if sp.size = size then
    .ok ({ m with heap := store m.heap space { sp with alloc := 1 } }, some space)
  else
    .ok (m, none)

/-- The body of the `if` of the search loop of `nextMalloc` together with the
final `return allocated->ptr`: carve from `element`, move the cursor, update
`bytesFree`. -/
def carve (element : Nat) (requested : Nat) (m : Memory) :
    Result (Memory × Option Nat) := do
  let r ← allocateBlock element requested m
  let allocated ← deref r.2
  let al ← load r.1.heap allocated
  .ok ({ r.1 with next := al.next, bytesFree := r.1.bytesFree - al.size }, some al.ptr)

/-- The `do ... while (element != memory.next)` loop of `nextMalloc`, one
unit of fuel per iteration. Leaving the loop without `break` reaches
`return allocated->ptr` with `allocated` never assigned. -/
def scan (requested : Nat) (m : Memory) : Nat → Option Nat → Result (Memory × Option Nat)
  | 0, _ => .diverge
  | fuel + 1, element =>
    match (match element with
           | none => m.tail
           | some e => some e) with
    | none => .fault
    | some e =>
      match m.heap e with
      | none => .fault
      | some el =>
        if el.alloc = 0 ∧ el.size ≥ requested then carve e requested m
        else if el.next ≠ m.next then scan requested m fuel el.next
        else .fault

/-- `nextMalloc(requested)`: the state and the returned pointer (`none` is
NULL). -/
def nextMalloc (fuel : Nat) (requested : Nat) (m : Memory) :
    Result (Memory × Option Nat) :=
  if m.bytesFree < requested then .ok (m, none)
  else scan requested m fuel m.next

/-- `mergeForward(element)`. -/
def mergeForward (element : Nat) (m : Memory) : Result Memory := do
  let el ← load m.heap element
  let next ← deref el.next
  let nx ← load m.heap next
  let h1 := store m.heap element { el with next := nx.next }
  let nx1 ← load h1 next
  let h2 ← (match nx1.next with
    | some nn => do
      let e ← load h1 nn
      .ok (store h1 nn { e with prev := some element })
    | none => .ok h1)
  let el2 ← load h2 element
  let nx2 ← load h2 next
  let h3 := store h2 element { el2 with size := el2.size + nx2.size }
  let el3 ← load h3 element
  let hd := if el3.next = none then some element else m.head
  let cur := if m.next = some next then some element else m.next
  .ok { m with heap := release h3 next, head := hd, next := cur }

/-- `mergeBackwards(element)`. -/
def mergeBackwards (element : Nat) (m : Memory) : Result Memory := do
  let el ← load m.heap element
  let previous ← deref el.prev
  let pv ← load m.heap previous
  let h1 := store m.heap element { el with prev := pv.prev }
  let el1 ← load h1 element
  let h2 ← (match el1.prev with
    | some pp => do
      let e ← load h1 pp
      .ok (store h1 pp { e with next := some element })
    | none => .ok h1)
  let el2 ← load h2 element
  let pv2 ← load h2 previous
  let h3 := store h2 element { el2 with ptr := pv2.ptr }
  let el3 ← load h3 element
  let pv3 ← load h3 previous
  let h4 := store h3 element { el3 with size := el3.size + pv3.size }
  let el4 ← load h4 element
  let tl := if el4.prev = none then some element else m.tail
  .ok { m with heap := release h4 previous, tail := tl }

/-- The `// Merge forward` block of `freeElement`: `mergeForward(element)`
when `element->next` is not NULL and is free. -/
def forwardBlock (element : Nat) (m : Memory) : Result Memory := do
  let el ← load m.heap element
  match el.next with
  | some nx =>
    let ne ← load m.heap nx
    if ne.alloc = 0 then mergeForward element m else .ok m
  | none => .ok m

/-- The `// Merge backwards` block of `freeElement`: `mergeBackwards(element)`
when `element->prev` is not NULL and is free. -/
def backwardsBlock (element : Nat) (m : Memory) : Result Memory := do
  let el ← load m.heap element
  match el.prev with
  | some pv =>
    let pe ← load m.heap pv
    if pe.alloc = 0 then mergeBackwards element m else .ok m
  | none => .ok m

/-- `freeElement(element)`: mark the block free and give its bytes back, then
the merge-forward block, then the merge-backwards block. -/
def freeElement (element : Nat) (m : Memory) : Result Memory := do
  let el ← load m.heap element
  let m1 : Memory :=
    { m with heap := store m.heap element { el with alloc := 0 },
             bytesFree := m.bytesFree + el.size }
  let m2 ← forwardBlock element m1
  backwardsBlock element m2

/-- Modelled from the spec: `findByAddress(block)` of `memoryStructure.h`, the
address lookup: it scans the list, here from `tail` along `next`, for the
node whose `ptr` is exactly `block`, and returns NULL when there is none. -/
def findByAddress (block : Nat) (h : Heap) : Nat → Option Nat → Result (Option Nat)
  | 0, _ => .diverge
  | _ + 1, none => .ok none
  | fuel + 1, some a =>
    match h a with
    | none => .fault
    | some e => if e.ptr = block then .ok (some a) else findByAddress block h fuel e.next

/-- `nextFree(block)`. -/
def nextFree (fuel : Nat) (block : Nat) (m : Memory) : Result Memory := do
  let found ← findByAddress block m.heap fuel m.tail
  let element ← deref found
  let el ← load m.heap element
  if el.alloc = 0 then .ok m
  else freeElement element m

/-- The state of the program before any call: the zero-filled global. -/
def uninit : Memory :=
  { memStart := none, poolSize := 0, head := none, tail := none, next := none,
    bytesFree := 0, heap := fun _ => none, brk := 0 }

/-- A node cell that `malloc` returns zero-filled. -/
def zeroed : Element :=
  { size := 0, alloc := 0, ptr := 0, prev := none, next := none }

/-! ## The block list behind a state -/

/-- A node of the block list: its address and its payload. -/
structure Node where
  addr : Nat
  size : Nat
  alloc : Nat
  ptr : Nat
deriving DecidableEq, Repr

/-- The nodes met from `p` along `next` up to NULL, as `printMemory` walks
them from `memory.tail`: address, size, allocation flag and start pointer of
each. -/
def walk (h : Heap) : Nat → Option Nat → Option (List Node)
  | _, none => some []
  | 0, some _ => none
  | fuel + 1, some a =>
    match h a with
    | none => none
    | some e => (walk h fuel e.next).map (fun l => ⟨a, e.size, e.alloc, e.ptr⟩ :: l)

/-- The block list of a state: the nodes from `tail` to `head`. -/
def blocks (fuel : Nat) (m : Memory) : Option (List Node) :=
  walk m.heap fuel m.tail

/-- Address of the first node of `l`, or `q` when `l` is empty. -/
def firstAddr : List Node → Option Nat → Option Nat
  | [], q => q
  | x :: _, _ => some x.addr

/-- Address of the last node of `l`, or `p` when `l` is empty. -/
def lastAddr : Option Nat → List Node → Option Nat
  | p, [] => p
  | _, x :: xs => lastAddr (some x.addr) xs

/-- The heap holds the nodes of `l` doubly linked in this order, the first
with `prev = p` and the last with `next = q`. -/
def Seg (h : Heap) : Option Nat → List Node → Option Nat → Prop
  | _, [], _ => True
  | p, x :: xs, q =>
    h x.addr = some ⟨x.size, x.alloc, x.ptr, p, firstAddr xs q⟩ ∧ Seg h (some x.addr) xs q

/-- Addresses of the nodes of a list. -/
def addrs (l : List Node) : List Nat := l.map Node.addr

/-- The list `l`, from `tail` to `head`, is the block list of the state. -/
structure Rep (m : Memory) (l : List Node) : Prop where
  seg : Seg m.heap none l none
  nodup : (addrs l).Nodup
  tail : m.tail = firstAddr l none
  head : m.head = lastAddr none l
  fresh : ∀ a ∈ addrs l, a < m.brk

/-- The list after the merge-forward block on `x` followed by `l2`: the node
and what follows it. -/
def absorbNext (x : Node) : List Node → Node × List Node
  | y :: r2 => if y.alloc = 0 then (⟨x.addr, x.size + y.size, x.alloc, x.ptr⟩, r2) else (x, y :: r2)
  | [] => (x, [])

/-- The list after the merge-backwards block on `x` preceded by `l1`: what
precedes the node, and the node. -/
def absorbPrev (l1 : List Node) (x : Node) : List Node × Node :=
  match l1.getLast? with
  | some z => if z.alloc = 0 then (l1.dropLast, ⟨x.addr, x.size + z.size, x.alloc, z.ptr⟩) else (l1, x)
  | none => (l1, x)

/-- The block list after `freeElement` on the node `x` standing between `l1`
and `l2`: `x` is marked free, absorbs its successor when that one is free,
then its predecessor when that one is free. -/
def coalesce (l1 : List Node) (x : Node) (l2 : List Node) : List Node :=
  let f := absorbNext ⟨x.addr, x.size, 0, x.ptr⟩ l2
  let b := absorbPrev l1 f.1
  b.1 ++ b.2 :: f.2

/-- The cursor after `freeElement` on `x` followed by `l2`: `mergeForward`
repoints it when it was the absorbed successor. -/
def cursorAfterFree (c : Option Nat) (x : Node) (l2 : List Node) : Option Nat :=
  match l2 with
  | y :: _ => if y.alloc = 0 ∧ c = some y.addr then some x.addr else c
  | [] => c

/-- What a release step from `m` (list `l`) to `m1` (list `l1`) leaves alone:
the pool, the fresh-address counter, every cell outside the list; a node that
left the list has been handed back, and no node joined. -/
structure Kept (m m1 : Memory) (l l1 : List Node) : Prop where
  memStart : m1.memStart = m.memStart
  poolSize : m1.poolSize = m.poolSize
  brk : m1.brk = m.brk
  frame : ∀ a, a ∉ addrs l → m1.heap a = m.heap a
  dead : ∀ a, a ∈ addrs l → a ∉ addrs l1 → m1.heap a = none
  sub : ∀ a, a ∈ addrs l1 → a ∈ addrs l

/-- The list after `allocateBlock` carved `r` bytes from the node `x` standing
between `l1` and `l2`; `fresh` is the address of the new node of a split. -/
def carveList (fresh : Nat) (l1 : List Node) (x : Node) (l2 : List Node) (r : Nat) : List Node :=
  if r < x.size then
    l1 ++ ⟨fresh, r, 1, x.ptr⟩ :: ⟨x.addr, x.size - r, x.alloc, x.ptr + r⟩ :: l2
  else l1 ++ ⟨x.addr, x.size, 1, x.ptr⟩ :: l2

/-- The cursor is NULL, a node of the list, or a node that has been handed
back to `free`. -/
def Cur (m : Memory) (l : List Node) : Prop :=
  ∀ c, m.next = some c → c ∈ addrs l ∨ (m.heap c = none ∧ c < m.brk)

/-- Each block starts where its predecessor ends, the first one at `o`. -/
def Contig : Nat → List Node → Prop
  | _, [] => True
  | o, x :: xs => x.ptr = o ∧ Contig (o + x.size) xs

/-- Sum of the block sizes. -/
def total : List Node → Nat
  | [] => 0
  | x :: xs => x.size + total xs

/-- No block and its successor are both free. -/
def NoAdjFree : List Node → Prop
  | x :: y :: r => ¬(x.alloc = 0 ∧ y.alloc = 0) ∧ NoAdjFree (y :: r)
  | _ => True

/-- Sum of the sizes of the free blocks. -/
def freeSum : List Node → Nat
  | [] => 0
  | x :: xs => (if x.alloc = 0 then x.size else 0) + freeSum xs

/-- The states the allocator goes through: `nextinit(n)` with `n ≥ 1`, from any
prior state, with the pool at `base`, followed by calls of `nextMalloc` and
`nextFree` that return. The node cell `malloc` hands to `nextinit` holds
whatever it holds: `nextinit` does not assign its two links. -/
inductive Reachable (base n : Nat) : Memory → Prop
  | init (junk : Element) (m0 : Memory) :
      1 ≤ n → Reachable base n (nextinit junk base n m0)
  | malloc {m m1 : Memory} {p : Option Nat} (fuel r : Nat) :
      Reachable base n m → nextMalloc fuel r m = .ok (m1, p) → Reachable base n m1
  | free {m m1 : Memory} (fuel b : Nat) :
      Reachable base n m → nextFree fuel b m = .ok m1 → Reachable base n m1

/-- The reachable states of the runs in which the node cell that `malloc`
hands to `nextinit` comes with both links NULL. -/
inductive ReachableNull (base n : Nat) : Memory → Prop
  | init (junk : Element) (m0 : Memory) :
      1 ≤ n → junk.prev = none → junk.next = none →
      ReachableNull base n (nextinit junk base n m0)
  | malloc {m m1 : Memory} {p : Option Nat} (fuel r : Nat) :
      ReachableNull base n m → nextMalloc fuel r m = .ok (m1, p) → ReachableNull base n m1
  | free {m m1 : Memory} (fuel b : Nat) :
      ReachableNull base n m → nextFree fuel b m = .ok m1 → ReachableNull base n m1

/-- The invariant of the states reached from a node cell with NULL links, on
the block list `l`. -/
structure Inv (base n : Nat) (m : Memory) (l : List Node) : Prop where
  rep : Rep m l
  cur : Cur m l
  contig : Contig base l
  total : total l = n
  noAdj : NoAdjFree l
  free : m.bytesFree = freeSum l

/-! ## Scenarios -/

/-- The state after `nextMalloc(r)`; the state itself when the call does not
return. -/
def afterMalloc (fuel r : Nat) (m : Memory) : Memory :=
  match nextMalloc fuel r m with
  | .ok (m1, _) => m1
  | _ => m

/-- The state after `nextFree(b)`; the state itself when the call does not
return. -/
def afterFree (fuel b : Nat) (m : Memory) : Memory :=
  match nextFree fuel b m with
  | .ok m1 => m1
  | _ => m

/-- `nextinit(n)` on the untouched program state, with the pool at address
`1000` and a zero-filled node cell. -/
def fresh (n : Nat) : Memory := nextinit zeroed 1000 n uninit

/-- The state after `nextinit(100); a = nextMalloc(30); b = nextMalloc(30);
c = nextMalloc(40); nextFree(a); nextFree(c)`: two free blocks of 30 and 40
bytes around an allocated one. -/
def fragmented : Memory :=
  afterFree 4 1060 (afterFree 4 1000 (afterMalloc 1 40 (afterMalloc 1 30 (afterMalloc 1 30
    (fresh 100)))))

/-- The state after `nextinit(100); a = nextMalloc(10); b = nextMalloc(80);
c = nextMalloc(10); nextFree(a); d = nextMalloc(5); nextFree(c); nextFree(d)`:
free blocks of 10 bytes at both ends of the pool, and the cursor on the tail
block. -/
def cursorOnTail : Memory :=
  afterFree 5 1000 (afterFree 5 1090 (afterMalloc 2 5 (afterFree 4 1000 (afterMalloc 1 10
    (afterMalloc 1 80 (afterMalloc 1 10 (fresh 100)))))))

/-! ## Next-fit order -/

/-- A block is free and holds at least `r` bytes. -/
def fits (r : Nat) (x : Node) : Bool := x.alloc == 0 && decide (r ≤ x.size)

/-- The blocks in circular list order starting at the cursor: from the cursor
block to `head`, then from `tail` up to the block before the cursor; a NULL
cursor is past `head`, so the order starts at `tail`. -/
def scanOrder (l : List Node) (cursor : Option Nat) : List Node :=
  match cursor with
  | none => l
  | some c => l.dropWhile (fun x => x.addr != c) ++ l.takeWhile (fun x => x.addr != c)

/-- The first block in that order that is free and large enough. -/
def firstFit (r : Nat) (l : List Node) (cursor : Option Nat) : Option Node :=
  (scanOrder l cursor).find? (fits r)

/-- The state after `nextinit(100); a = nextMalloc(30); b = nextMalloc(30);
c = nextMalloc(30); nextFree(a)`: the cursor is on the last block, 10 bytes
free, and the 30 bytes at the tail are free. -/
def tailReleased : Memory :=
  afterFree 5 1000 (afterMalloc 1 30 (afterMalloc 1 30 (afterMalloc 1 30 (fresh 100))))

/-! ## Allocation and release sequences -/

/-- A sequence of `nextMalloc` requests, one after the other: the final state
and the handles that were returned (a NULL result contributes none). -/
def mallocAll (fuel : Nat) : List Nat → Memory → Result (Memory × List Nat)
  | [], m => .ok (m, [])
  | r :: rs, m => do
    let a ← nextMalloc fuel r m
    let b ← mallocAll fuel rs a.1
    .ok (b.1, a.2.toList ++ b.2)

/-- A sequence of `nextFree` calls, one after the other. -/
def freeAll (fuel : Nat) : List Nat → Memory → Result Memory
  | [], m => .ok m
  | b :: bs, m => do
    let m1 ← nextFree fuel b m
    freeAll fuel bs m1

/-- The start pointers of the allocated blocks of a list, in list order. -/
def allocPtrs (l : List Node) : List Nat :=
  (l.filter (fun x => x.alloc != 0)).map Node.ptr

/-- Every block has at least one byte. -/
def Pos (l : List Node) : Prop := ∀ x ∈ l, 0 < x.size

/-- The shape of the list while only allocations have happened since
`nextinit`: allocated blocks, followed or not by one free block on which the
cursor stands. -/
def Packed (m : Memory) (l : List Node) : Prop :=
  ∃ A, (∀ a ∈ A, a.alloc ≠ 0) ∧
    ((l = A ∧ m.bytesFree = 0) ∨ ∃ R, l = A ++ [R] ∧ R.alloc = 0 ∧ m.next = some R.addr)

/-! ## More scenarios -/

/-- The state after `nextinit(100); nextMalloc(0)`: an allocated block of size
0 in front of the free block, both starting at the pool base. -/
def zeroFront : Memory := afterMalloc 1 0 (fresh 100)

/-- The state after `nextinit(100); nextMalloc(0); nextMalloc(100)`: an
allocated block of size 0 and an allocated block of 100 bytes, both starting
at the pool base. -/
def zeroThenFull : Memory := afterMalloc 1 100 zeroFront

/-- The state after `nextinit(100); a = nextMalloc(30); b = nextMalloc(30);
c = nextMalloc(30); nextFree(a); nextMalloc(20); nextFree(b)`. -/
def cursorDangling : Memory := afterFree 6 1030 (afterMalloc 2 20 tailReleased)

/-- The state after `nextinit(100); a = nextMalloc(30); b = nextMalloc(30);
c = nextMalloc(40)`. -/
def threeAllocated : Memory :=
  afterMalloc 1 40 (afterMalloc 1 30 (afterMalloc 1 30 (fresh 100)))

/-- The state after `nextFree(b)` on three allocated blocks `a`, `b`, `c`. -/
def middleReleased : Memory := afterFree 4 1030 threeAllocated

/-- The state after `nextinit(50); a = nextMalloc(50); nextFree(a)`. -/
def releasedWhole : Memory := afterFree 2 1000 (afterMalloc 1 50 (fresh 50))

/-! ## Re-initialisation on a recycled node cell -/

/-- The cell of the first node of `middleReleased` as `clean` released it: the
`next` link still holds the address of the second node, which was the node
of the free block. -/
def staleNext : Element := ⟨30, 1, 1000, none, some 2⟩

/-- The state after `nextinit(100)` on `middleReleased`, with a new pool at
address `2000`, when `malloc` hands back the cell `staleNext`. -/
def reinit : Memory := nextinit staleNext 2000 100 middleReleased

/-- The cell of the last node of `threeAllocated` as `clean` released it, its
`prev` link holding the address of a released cell that `malloc` hands out
again for the next node (cell `4` of the model). -/
def stalePrev : Element := ⟨40, 1, 1060, some 4, none⟩

/-- The state after `nextinit(100)` on `threeAllocated` when `malloc` hands
back the cell `stalePrev`. -/
def reinitPrev : Memory := nextinit stalePrev 2000 100 threeAllocated

/-- The cell of the first node of `threeAllocated` as `clean` released it, its
`next` link holding the address of a released cell that `malloc` hands out
again for the next node (cell `4` of the model). -/
def reissuedNext : Element := ⟨30, 1, 1000, none, some 4⟩

/-- The state after `nextinit(100)` on `threeAllocated` when `malloc` hands
back the cell `reissuedNext`. -/
def reinitNext : Memory := nextinit reissuedNext 2000 100 threeAllocated

/-- The state after that re-initialisation followed by `a = nextMalloc(60);
b = nextMalloc(30); nextFree(a); t = nextMalloc(20); nextMalloc(40);
nextFree(t); nextMalloc(3); nextFree(b)`: from `tail` the blocks are
`[20 free][40][30 free][3][7 free]`, the cursor is the last one, the head
block, and the `next` link of the head block is the stale one. -/
def tailSkipped : Memory :=
  afterFree 3 2060 (afterMalloc 3 3 (afterFree 1 2000 (afterMalloc 1 40 (afterMalloc 2 20
    (afterFree 1 2000 (afterMalloc 1 30 (afterMalloc 1 60 reinitNext)))))))

/-! ## Results -/

@[simp] theorem bind_ok {α β : Type} (a : α) (f : α → Result β) :
    (Result.ok a >>= f) = f a := rfl

@[simp] theorem bind_fault {α β : Type} (f : α → Result β) :
    ((Result.fault : Result α) >>= f) = Result.fault := rfl

@[simp] theorem bind_diverge {α β : Type} (f : α → Result β) :
    ((Result.diverge : Result α) >>= f) = Result.diverge := rfl

@[simp] theorem pure_eq_ok {α : Type} (a : α) : (pure a : Result α) = Result.ok a := rfl

theorem bind_eq_ok {α β : Type} {r : Result α} {f : α → Result β} {b : β}
    (h : (r >>= f) = Result.ok b) : ∃ a, r = Result.ok a ∧ f a = Result.ok b := by
  cases r with
  | ok a => exact ⟨a, rfl, h⟩
  | fault => cases h
  | diverge => cases h

/-! ## Heap cells -/

@[simp] theorem store_same (h : Heap) (a : Nat) (e : Element) : store h a e a = some e := by
  simp [store]

theorem store_other (h : Heap) {a b : Nat} (e : Element) (hne : b ≠ a) :
    store h a e b = h b := by
  simp [store, hne]

@[simp] theorem release_same (h : Heap) (a : Nat) : release h a a = none := by
  simp [release]

theorem release_other (h : Heap) {a b : Nat} (hne : b ≠ a) : release h a b = h b := by
  simp [release, hne]

theorem load_of_eq {h : Heap} {a : Nat} {e : Element} (he : h a = some e) :
    load h a = Result.ok e := by
  simp [load, he]

theorem load_eq_ok {h : Heap} {a : Nat} {e : Element} (he : load h a = Result.ok e) :
    h a = some e := by
  unfold load at he
  split at he
  · rename_i e1 h1
    cases he
    exact h1
  · cases he

/-! ## Segments -/

@[simp] theorem addrs_nil : addrs [] = [] := rfl
@[simp] theorem addrs_cons (x : Node) (l : List Node) : addrs (x :: l) = x.addr :: addrs l := rfl
@[simp] theorem addrs_append (l1 l2 : List Node) : addrs (l1 ++ l2) = addrs l1 ++ addrs l2 := by
  simp [addrs]

@[simp] theorem firstAddr_nil (q : Option Nat) : firstAddr [] q = q := rfl
@[simp] theorem firstAddr_cons (x : Node) (l : List Node) (q : Option Nat) :
    firstAddr (x :: l) q = some x.addr := rfl
@[simp] theorem lastAddr_nil (p : Option Nat) : lastAddr p [] = p := rfl
@[simp] theorem lastAddr_cons (p : Option Nat) (x : Node) (l : List Node) :
    lastAddr p (x :: l) = lastAddr (some x.addr) l := rfl

@[simp] theorem firstAddr_append (l1 l2 : List Node) (q : Option Nat) :
    firstAddr (l1 ++ l2) q = firstAddr l1 (firstAddr l2 q) := by
  cases l1 <;> rfl

@[simp] theorem lastAddr_append (p : Option Nat) (l1 l2 : List Node) :
    lastAddr p (l1 ++ l2) = lastAddr (lastAddr p l1) l2 := by
  induction l1 generalizing p with
  | nil => rfl
  | cons x xs ih => simp [ih]

@[simp] theorem seg_nil (h : Heap) (p q : Option Nat) : Seg h p [] q := trivial

theorem seg_cons (h : Heap) (p q : Option Nat) (x : Node) (xs : List Node) :
    Seg h p (x :: xs) q ↔
      h x.addr = some ⟨x.size, x.alloc, x.ptr, p, firstAddr xs q⟩ ∧ Seg h (some x.addr) xs q :=
  Iff.rfl

theorem seg_append (h : Heap) (p q : Option Nat) (l1 l2 : List Node) :
    Seg h p (l1 ++ l2) q ↔ Seg h p l1 (firstAddr l2 q) ∧ Seg h (lastAddr p l1) l2 q := by
  induction l1 generalizing p with
  | nil => simp
  | cons x xs ih => simp [seg_cons, ih, and_assoc]

theorem seg_congr {h h1 : Heap} {p q : Option Nat} {l : List Node}
    (hagree : ∀ a ∈ addrs l, h1 a = h a) (hs : Seg h p l q) : Seg h1 p l q := by
  induction l generalizing p with
  | nil => trivial
  | cons x xs ih =>
    obtain ⟨hx, hxs⟩ := hs
    refine ⟨?_, ih (fun a ha => hagree a (by simp [ha])) hxs⟩
    rw [hagree x.addr (by simp)]
    exact hx

theorem seg_store {h : Heap} {p q : Option Nat} {l : List Node} {a : Nat} (e : Element)
    (ha : a ∉ addrs l) (hs : Seg h p l q) : Seg (store h a e) p l q :=
  seg_congr (fun _ hb => store_other h e (fun hba => ha (hba ▸ hb))) hs

theorem seg_release {h : Heap} {p q : Option Nat} {l : List Node} {a : Nat}
    (ha : a ∉ addrs l) (hs : Seg h p l q) : Seg (release h a) p l q :=
  seg_congr (fun _ hb => release_other h (fun hba => ha (hba ▸ hb))) hs

/-- Changing the pointer that follows a segment only touches its last node. -/
theorem seg_retarget {h : Heap} {p q : Option Nat} {l : List Node} {y : Node} (q1 : Option Nat)
    (hy : y.addr ∉ addrs l) (hs : Seg h p (l ++ [y]) q) :
    Seg (store h y.addr ⟨y.size, y.alloc, y.ptr, lastAddr p l, q1⟩) p (l ++ [y]) q1 := by
  rw [seg_append] at hs ⊢
  refine ⟨seg_store _ hy hs.1, ?_, trivial⟩
  simp

/-- The node in the middle of a segment. -/
theorem seg_mid {h : Heap} {p q : Option Nat} {l1 l2 : List Node} {x : Node}
    (hs : Seg h p (l1 ++ x :: l2) q) :
    h x.addr = some ⟨x.size, x.alloc, x.ptr, lastAddr p l1, firstAddr l2 q⟩ := by
  rw [seg_append] at hs
  exact hs.2.1

theorem seg_mid_at (l1 : List Node) (x : Node) (l2 : List Node) {h : Heap} {p q : Option Nat}
    (hs : Seg h p (l1 ++ x :: l2) q) :
    h x.addr = some ⟨x.size, x.alloc, x.ptr, lastAddr p l1, firstAddr l2 q⟩ :=
  seg_mid hs

/-! ## The list operations on a represented state -/

theorem store_apply (h : Heap) (a b : Nat) (e : Element) :
    store h a e b = if b = a then some e else h b := rfl

theorem release_apply (h : Heap) (a b : Nat) :
    release h a b = if b = a then none else h b := rfl

theorem nil_or_snoc (l : List Node) : l = [] ∨ ∃ L y, l = L ++ [y] := by
  rcases List.eq_nil_or_concat l with h | ⟨L, y, h⟩
  · exact Or.inl h
  · exact Or.inr ⟨L, y, by simpa using h⟩

theorem nodup_mid {l1 l2 : List Node} {x : Node} (h : (addrs (l1 ++ x :: l2)).Nodup) :
    x.addr ∉ addrs l1 ∧ x.addr ∉ addrs l2 ∧ (addrs l1).Nodup ∧ (addrs l2).Nodup ∧
      ∀ a ∈ addrs l1, a ∉ addrs l2 := by
  simp only [addrs_append, addrs_cons, List.nodup_append, List.nodup_cons,
    List.disjoint_cons_right] at h
  obtain ⟨h1, ⟨h2, h3⟩, h4, h5⟩ := h
  exact ⟨h4, h2, h1, h3, fun a ha hb => h5 ha hb⟩

theorem nodup_mid_at (l1 : List Node) (x : Node) (l2 : List Node)
    (h : (addrs (l1 ++ x :: l2)).Nodup) :
    x.addr ∉ addrs l1 ∧ x.addr ∉ addrs l2 ∧ (addrs l1).Nodup ∧ (addrs l2).Nodup ∧
      ∀ a ∈ addrs l1, a ∉ addrs l2 :=
  nodup_mid h

theorem allocateBlock_split {m : Memory} {l1 l2 : List Node} {x : Node} {r : Nat}
    (hrep : Rep m (l1 ++ x :: l2)) (hlt : r < x.size) :
    ∃ m1, allocateBlock x.addr r m = .ok (m1, some m.brk) ∧
      Rep m1 (l1 ++ ⟨m.brk, r, 1, x.ptr⟩ :: ⟨x.addr, x.size - r, x.alloc, x.ptr + r⟩ :: l2) ∧
      m1.next = m.next ∧ m1.bytesFree = m.bytesFree ∧ m1.memStart = m.memStart ∧
      m1.poolSize = m.poolSize ∧ m1.brk = m.brk + 1 ∧
      ∀ a, a ∉ addrs (l1 ++ x :: l2) → a ≠ m.brk → m1.heap a = m.heap a := by
  have hx := seg_mid hrep.seg
  obtain ⟨hx1, hx2, hn1, hn2, hdis⟩ := nodup_mid hrep.nodup
  have hfr := hrep.fresh
  have hxb : x.addr < m.brk := hfr _ (by simp)
  have hxne : x.addr ≠ m.brk := Nat.ne_of_lt hxb
  have hseg := hrep.seg
  rw [seg_append, seg_cons] at hseg
  obtain ⟨hs1, -, hs2⟩ := hseg
  have hb2 : m.brk ∉ addrs l2 := fun hmem => Nat.lt_irrefl _ (hfr _ (by simp [hmem]))
  have hb1 : m.brk ∉ addrs l1 := fun hmem => Nat.lt_irrefl _ (hfr _ (by simp [hmem]))
  have hhead := hrep.head
  have htail := hrep.tail
  rcases nil_or_snoc l1 with rfl | ⟨L, y, rfl⟩
  · simp only [lastAddr_nil, firstAddr_nil] at hx
    simp [allocateBlock, hx, hlt, load, store_apply, hxne, hxne.symm]
    refine ⟨⟨?_, ?_, ?_, ?_, ?_⟩, ?_⟩
    · simp only [seg_cons, firstAddr_cons, store_apply, hxne, hxne.symm, if_true, if_false,
        true_and]
      exact seg_store _ hx2 (seg_store _ hb2 hs2)
    · simp [hxne.symm, hb2, hx2, hn2]
    · simp
    · simpa using hhead
    · intro a ha
      simp at ha
      show a < m.brk + 1
      rcases ha with rfl | rfl | ha
      · omega
      · omega
      · exact Nat.lt_succ_of_lt (hfr a (by simp [ha]))
    · intro a h1 _ h3
      simp [h1, h3]
  · have hy := seg_mid_at L _ [] hs1
    simp only [firstAddr_nil, firstAddr_cons] at hy
    have hyx : y.addr ≠ x.addr := by
      intro h
      apply hx1
      simp [h]
    have hyb : y.addr ≠ m.brk := Nat.ne_of_lt (hfr _ (by simp))
    simp only [lastAddr_append, lastAddr_cons, lastAddr_nil] at hx
    simp [allocateBlock, hx, hy, hlt, load, store_apply, hxne, hxne.symm, hyx, hyb, hyx.symm, hyb.symm]
    have hyL : y.addr ∉ addrs L := by
      have h := hn1
      simp [List.nodup_append] at h
      exact h.2
    have hxL : x.addr ∉ addrs L := fun hm => hx1 (by simp [hm])
    have hbL : m.brk ∉ addrs L := fun hm => hb1 (by simp [hm])
    have hy2 : y.addr ∉ addrs l2 := hdis _ (by simp)
    rw [seg_append] at hs1
    refine ⟨⟨?_, ?_, ?_, ?_, ?_⟩, ?_⟩
    · simp only [seg_append, seg_cons, firstAddr_cons, lastAddr_cons, lastAddr_nil, store_apply,
        hxne, hxne.symm, hyx, hyx.symm, hyb, hyb.symm, if_true, if_false, true_and]
      exact ⟨seg_store _ hyL (seg_store _ hxL (seg_store _ hbL hs1.1)),
        seg_store _ hy2 (seg_store _ hx2 (seg_store _ hb2 hs2))⟩
    · have h := hrep.nodup
      simp only [addrs_append, addrs_cons, addrs_nil, List.nodup_append, List.nodup_cons] at h ⊢
      simp at h ⊢
      exact ⟨h.1.1, ⟨⟨hyb, hyx, hy2⟩, ⟨hxne.symm, hb2⟩, hx2, hn2⟩, hyL, hbL, hxL, h.2.2.2.1⟩
    · simpa using htail
    · simpa using hhead
    · intro a ha
      show a < m.brk + 1
      simp at ha
      have hylt : y.addr < m.brk := hfr _ (by simp)
      rcases ha with ha | rfl | rfl | rfl | ha
      · exact Nat.lt_succ_of_lt (hfr a (by simp [ha]))
      · omega
      · omega
      · omega
      · exact Nat.lt_succ_of_lt (hfr a (by simp [ha]))
    · intro a _ h1 h2 _ h3
      simp [h1, h2, h3]

theorem allocateBlock_exact {m : Memory} {l1 l2 : List Node} {x : Node} {r : Nat}
    (hrep : Rep m (l1 ++ x :: l2)) (heq : x.size = r) :
    ∃ m1, allocateBlock x.addr r m = .ok (m1, some x.addr) ∧
      Rep m1 (l1 ++ ⟨x.addr, x.size, 1, x.ptr⟩ :: l2) ∧
      m1.next = m.next ∧ m1.bytesFree = m.bytesFree ∧ m1.memStart = m.memStart ∧
      m1.poolSize = m.poolSize ∧ m1.brk = m.brk ∧
      ∀ a, a ∉ addrs (l1 ++ x :: l2) → m1.heap a = m.heap a := by
  have hx := seg_mid hrep.seg
  obtain ⟨hx1, hx2, hn1, hn2, hdis⟩ := nodup_mid hrep.nodup
  have hseg := hrep.seg
  rw [seg_append, seg_cons] at hseg
  obtain ⟨hs1, -, hs2⟩ := hseg
  simp [allocateBlock, hx, heq, load]
  refine ⟨⟨?_, ?_, ?_, ?_, ?_⟩, ?_⟩
  · simp only [seg_append, seg_cons, firstAddr_cons, store_apply, if_true, true_and]
    exact ⟨seg_store _ hx1 hs1, seg_store _ hx2 hs2⟩
  · simpa using hrep.nodup
  · simpa using hrep.tail
  · simpa using hrep.head
  · simpa using hrep.fresh
  · intro a _ h1 _
    simp [store_apply, h1]

theorem mergeForward_rep {m : Memory} {l1 l2 : List Node} {x y : Node}
    (hrep : Rep m (l1 ++ x :: y :: l2)) :
    ∃ m1, mergeForward x.addr m = .ok m1 ∧
      Rep m1 (l1 ++ ⟨x.addr, x.size + y.size, x.alloc, x.ptr⟩ :: l2) ∧
      m1.next = (if m.next = some y.addr then some x.addr else m.next) ∧
      m1.bytesFree = m.bytesFree ∧ m1.memStart = m.memStart ∧
      m1.poolSize = m.poolSize ∧ m1.brk = m.brk ∧
      (∀ a, a ∉ addrs (l1 ++ x :: y :: l2) → m1.heap a = m.heap a) ∧
      m1.heap y.addr = none := by
  have hx := seg_mid hrep.seg
  have hy := seg_mid_at (l1 ++ [x]) y l2 (by simpa using hrep.seg)
  simp only [lastAddr_append, lastAddr_cons, lastAddr_nil, firstAddr_cons] at hx hy
  obtain ⟨hx1, hx2, hn1, hn2, hdis⟩ := nodup_mid hrep.nodup
  obtain ⟨hy1, hy2, -, hn3, hdis2⟩ := nodup_mid_at (l1 ++ [x]) y l2
    (by simpa using hrep.nodup)
  have hxy : x.addr ≠ y.addr := by
    intro h
    apply hy1
    simp [h]
  have hyl1 : y.addr ∉ addrs l1 := fun hm => hy1 (by simp [hm])
  have hxl2 : x.addr ∉ addrs l2 := fun hm => hx2 (by simp [hm])
  have hseg := hrep.seg
  rw [seg_append, seg_cons, seg_cons] at hseg
  obtain ⟨hs1, -, -, hs2⟩ := hseg
  simp only [firstAddr_cons] at hs1
  have hfr := hrep.fresh
  have hhead := hrep.head
  have htail := hrep.tail
  rcases l2 with _ | ⟨z, l2⟩
  · simp only [firstAddr_nil] at hy
    simp [mergeForward, hx, hy, load, deref, store_apply, release_apply, hxy, hxy.symm]
    refine ⟨⟨?_, ?_, ?_, ?_, ?_⟩, ?_⟩
    · simp only [seg_append, seg_cons, firstAddr_cons, firstAddr_nil, store_apply, release_apply,
        hxy, if_true, if_false, true_and, seg_nil, and_true]
      exact seg_release hyl1 (seg_store _ hx1 (seg_store _ hx1 hs1))
    · simp [List.nodup_append, hn1, hx1]
    · simpa using htail
    · simp
    · intro a ha
      exact hfr a (by simp at ha ⊢; tauto)
    · intro a _ h1 h2
      simp [h1, h2]
  · have hz := seg_mid_at (l1 ++ [x, y]) z l2 (by simpa using hrep.seg)
    simp only [lastAddr_append, lastAddr_cons, lastAddr_nil, firstAddr_cons] at hy hz
    have hzx : z.addr ≠ x.addr := by
      intro h
      apply hx2
      simp [h]
    have hzy : z.addr ≠ y.addr := by
      intro h
      apply hy2
      simp [h]
    have hzl1 : z.addr ∉ addrs l1 := fun hm => hdis _ hm (by simp)
    have hxl2 : x.addr ∉ addrs l2 := fun hm => hx2 (by simp [hm])
    have hyl2 : y.addr ∉ addrs l2 := fun hm => hy2 (by simp [hm])
    have hzl2 : z.addr ∉ addrs l2 := by
      have h := hn3
      simp at h
      exact h.1
    rw [seg_cons] at hs2
    simp [mergeForward, hx, hy, hz, load, deref, store_apply, release_apply, hxy, hxy.symm,
      hzx, hzx.symm, hzy, hzy.symm]
    refine ⟨⟨?_, ?_, ?_, ?_, ?_⟩, ?_⟩
    · simp only [seg_append, seg_cons, firstAddr_cons, firstAddr_nil, store_apply, release_apply,
        hxy, hzx, hzx.symm, hzy, hzy.symm, if_true, if_false, true_and, seg_nil, and_true]
      exact ⟨seg_release hyl1 (seg_store _ hx1 (seg_store _ hzl1 (seg_store _ hx1 hs1))),
        seg_release hyl2 (seg_store _ hxl2 (seg_store _ hzl2 (seg_store _ hxl2 hs2.2)))⟩
    · have h := hrep.nodup
      simp [List.nodup_append] at h ⊢
      tauto
    · simpa using htail
    · simpa using hhead
    · intro a ha
      exact hfr a (by simp at ha ⊢; tauto)
    · intro a _ h1 h2 h3 _
      simp [h1, h2, h3]

theorem mergeBackwards_rep {m : Memory} {l1 l2 : List Node} {x y : Node}
    (hrep : Rep m (l1 ++ y :: x :: l2)) :
    ∃ m1, mergeBackwards x.addr m = .ok m1 ∧
      Rep m1 (l1 ++ ⟨x.addr, x.size + y.size, x.alloc, y.ptr⟩ :: l2) ∧
      m1.next = m.next ∧
      m1.bytesFree = m.bytesFree ∧ m1.memStart = m.memStart ∧
      m1.poolSize = m.poolSize ∧ m1.brk = m.brk ∧
      (∀ a, a ∉ addrs (l1 ++ y :: x :: l2) → m1.heap a = m.heap a) ∧
      m1.heap y.addr = none := by
  have hy := seg_mid hrep.seg
  have hx := seg_mid_at (l1 ++ [y]) x l2 (by simpa using hrep.seg)
  simp only [lastAddr_append, lastAddr_cons, lastAddr_nil, firstAddr_cons] at hx hy
  obtain ⟨hy1, hy2, hn1, hn2, hdis⟩ := nodup_mid hrep.nodup
  obtain ⟨hx1, hx2, -, hn3, hdis2⟩ := nodup_mid_at (l1 ++ [y]) x l2
    (by simpa using hrep.nodup)
  have hxy : x.addr ≠ y.addr := by
    intro h
    apply hx1
    simp [h]
  have hxl1 : x.addr ∉ addrs l1 := fun hm => hx1 (by simp [hm])
  have hyl2 : y.addr ∉ addrs l2 := fun hm => hy2 (by simp [hm])
  have hseg := hrep.seg
  rw [seg_append, seg_cons, seg_cons] at hseg
  obtain ⟨hs1, -, -, hs2⟩ := hseg
  simp only [firstAddr_cons] at hs1
  have hfr := hrep.fresh
  have hhead := hrep.head
  have htail := hrep.tail
  rcases nil_or_snoc l1 with rfl | ⟨L, z, rfl⟩
  · simp only [lastAddr_nil] at hy
    simp [mergeBackwards, hx, hy, load, deref, store_apply, release_apply, hxy, hxy.symm]
    refine ⟨⟨?_, ?_, ?_, ?_, ?_⟩, ?_⟩
    · simp only [seg_cons, store_apply, release_apply, hxy, if_true, if_false, true_and]
      exact seg_release hyl2 (seg_store _ hx2 (seg_store _ hx2 (seg_store _ hx2 hs2)))
    · simp [hx2, hn3]
    · simp
    · simpa using hhead
    · intro a ha
      exact hfr a (by simp at ha ⊢; tauto)
    · intro a h1 h2 _
      simp [h1, h2]
  · have hz := seg_mid_at L z [] hs1
    simp only [lastAddr_append, lastAddr_cons, lastAddr_nil, firstAddr_nil] at hy hz
    have hzx : z.addr ≠ x.addr := by
      intro h
      apply hxl1
      simp [h]
    have hzy : z.addr ≠ y.addr := by
      intro h
      apply hy1
      simp [h]
    have hzl2 : z.addr ∉ addrs l2 := fun hm => hdis2 z.addr (by simp) hm
    have hxL : x.addr ∉ addrs L := fun hm => hxl1 (by simp [hm])
    have hyL : y.addr ∉ addrs L := fun hm => hy1 (by simp [hm])
    have hzL : z.addr ∉ addrs L := by
      have h := hn1
      simp [List.nodup_append] at h
      exact h.2
    rw [seg_append] at hs1
    simp [mergeBackwards, hx, hy, hz, load, deref, store_apply, release_apply, hxy, hxy.symm,
      hzx, hzx.symm, hzy, hzy.symm]
    refine ⟨⟨?_, ?_, ?_, ?_, ?_⟩, ?_⟩
    · simp only [seg_append, seg_cons, firstAddr_cons, firstAddr_nil, lastAddr_cons, lastAddr_nil,
        store_apply, release_apply,
        hxy, hzx, hzx.symm, hzy, hzy.symm, if_true, if_false, true_and, seg_nil, and_true]
      exact ⟨seg_release hyL (seg_store _ hxL (seg_store _ hxL (seg_store _ hzL (seg_store _ hxL hs1.1)))),
        seg_release hyl2 (seg_store _ hx2 (seg_store _ hx2 (seg_store _ hzl2 (seg_store _ hx2 hs2))))⟩
    · have h := hrep.nodup
      simp [List.nodup_append] at h ⊢
      tauto
    · simpa using htail
    · simpa using hhead
    · intro a ha
      exact hfr a (by simp at ha ⊢; tauto)
    · intro a _ h1 h2 h3 _
      simp [h1, h2, h3]

/-! ## `freeElement` on a represented state -/

theorem rep_payload {m : Memory} {l1 l2 : List Node} {x : Node} (s al p bf : Nat)
    (hrep : Rep m (l1 ++ x :: l2)) :
    Rep { m with heap := store m.heap x.addr ⟨s, al, p, lastAddr none l1, firstAddr l2 none⟩,
                 bytesFree := bf }
      (l1 ++ ⟨x.addr, s, al, p⟩ :: l2) := by
  obtain ⟨hx1, hx2, hn1, hn2, hdis⟩ := nodup_mid hrep.nodup
  have hseg := hrep.seg
  rw [seg_append, seg_cons] at hseg
  obtain ⟨hs1, -, hs2⟩ := hseg
  refine ⟨?_, ?_, ?_, ?_, ?_⟩
  · simp only [seg_append, seg_cons, firstAddr_cons, store_apply, if_true, true_and]
    exact ⟨seg_store _ hx1 hs1, seg_store _ hx2 hs2⟩
  · simpa using hrep.nodup
  · simpa using hrep.tail
  · simpa using hrep.head
  · simpa using hrep.fresh

theorem kept_refl (m : Memory) (l : List Node) : Kept m m l l :=
  ⟨rfl, rfl, rfl, fun _ _ => rfl, fun _ h1 h2 => absurd h1 h2, fun _ h => h⟩

theorem kept_trans {m m1 m2 : Memory} {l l1 l2 : List Node}
    (h1 : Kept m m1 l l1) (h2 : Kept m1 m2 l1 l2) : Kept m m2 l l2 := by
  refine ⟨h2.memStart.trans h1.memStart, h2.poolSize.trans h1.poolSize,
    h2.brk.trans h1.brk, ?_, ?_, fun a ha => h1.sub a (h2.sub a ha)⟩
  · intro a ha
    rw [h2.frame a (fun hm => ha (h1.sub a hm)), h1.frame a ha]
  · intro a ha hna
    by_cases hm : a ∈ addrs l1
    · exact h2.dead a hm hna
    · rw [h2.frame a hm]
      exact h1.dead a ha hm

theorem forwardBlock_rep {m : Memory} {l1 l2 : List Node} {x : Node}
    (hrep : Rep m (l1 ++ x :: l2)) :
    ∃ m1, forwardBlock x.addr m = .ok m1 ∧
      Rep m1 (l1 ++ (absorbNext x l2).1 :: (absorbNext x l2).2) ∧
      m1.next = cursorAfterFree m.next x l2 ∧ m1.bytesFree = m.bytesFree ∧
      Kept m m1 (l1 ++ x :: l2) (l1 ++ (absorbNext x l2).1 :: (absorbNext x l2).2) := by
  have hx := seg_mid hrep.seg
  rcases l2 with _ | ⟨y, l2⟩
  · refine ⟨m, ?_, hrep, rfl, rfl, kept_refl _ _⟩
    simp [forwardBlock, load, hx]
  · have hy := seg_mid_at (l1 ++ [x]) y l2 (by simpa using hrep.seg)
    by_cases hya : y.alloc = 0
    · obtain ⟨m1, hm1, hrep1, hnext, hbf, hms, hps, hbrk, hfr, hdead⟩ := mergeForward_rep hrep
      refine ⟨m1, ?_, ?_, ?_, hbf, ⟨hms, hps, hbrk, hfr, ?_, ?_⟩⟩
      · simp [forwardBlock, load, hx, hy, hya, hm1]
      · simpa [absorbNext, hya] using hrep1
      · simp [cursorAfterFree, hya, hnext]
      · intro a ha hna
        simp [absorbNext, hya] at ha hna
        have : a = y.addr := by tauto
        rw [this]
        exact hdead
      · intro a ha
        simp [absorbNext, hya] at ha ⊢
        tauto
    · refine ⟨m, ?_, ?_, ?_, rfl, ?_⟩
      · simp [forwardBlock, load, hx, hy, hya]
      · simpa [absorbNext, hya] using hrep
      · simp [cursorAfterFree, hya]
      · simpa [absorbNext, hya] using kept_refl m _

theorem absorbPrev_nil (x : Node) : absorbPrev [] x = ([], x) := rfl

theorem absorbPrev_snoc (L : List Node) (z x : Node) :
    absorbPrev (L ++ [z]) x =
      if z.alloc = 0 then (L, ⟨x.addr, x.size + z.size, x.alloc, z.ptr⟩) else (L ++ [z], x) := by
  simp [absorbPrev]

theorem backwardsBlock_rep {m : Memory} {l1 l2 : List Node} {x : Node}
    (hrep : Rep m (l1 ++ x :: l2)) :
    ∃ m1, backwardsBlock x.addr m = .ok m1 ∧
      Rep m1 ((absorbPrev l1 x).1 ++ (absorbPrev l1 x).2 :: l2) ∧
      m1.next = m.next ∧ m1.bytesFree = m.bytesFree ∧
      Kept m m1 (l1 ++ x :: l2) ((absorbPrev l1 x).1 ++ (absorbPrev l1 x).2 :: l2) := by
  have hx := seg_mid hrep.seg
  rcases nil_or_snoc l1 with rfl | ⟨L, z, rfl⟩
  · refine ⟨m, ?_, hrep, rfl, rfl, kept_refl _ _⟩
    simp [backwardsBlock, load, hx]
  · have hrep' : Rep m (L ++ z :: x :: l2) := by simpa using hrep
    have hz := seg_mid hrep'.seg
    simp only [lastAddr_append, lastAddr_cons, lastAddr_nil] at hx
    rw [absorbPrev_snoc]
    by_cases hza : z.alloc = 0
    · obtain ⟨m1, hm1, hrep1, hnext, hbf, hms, hps, hbrk, hfr, hdead⟩ := mergeBackwards_rep hrep'
      refine ⟨m1, ?_, ?_, hnext, hbf, ⟨hms, hps, hbrk, ?_, ?_, ?_⟩⟩
      · simp [backwardsBlock, load, hx, hz, hza, hm1]
      · simpa [hza] using hrep1
      · intro a ha
        exact hfr a (by simpa using ha)
      · intro a ha hna
        simp [hza] at ha hna
        have : a = z.addr := by tauto
        rw [this]
        exact hdead
      · intro a ha
        simp [hza] at ha ⊢
        tauto
    · refine ⟨m, ?_, ?_, rfl, rfl, ?_⟩
      · simp [backwardsBlock, load, hx, hz, hza]
      · simpa [hza] using hrep
      · simpa [hza] using kept_refl m _

@[simp] theorem absorbNext_addr (x : Node) (l2 : List Node) : (absorbNext x l2).1.addr = x.addr := by
  rcases l2 with _ | ⟨y, l2⟩
  · rfl
  · by_cases h : y.alloc = 0 <;> simp [absorbNext, h]

theorem freeElement_rep {m : Memory} {l1 l2 : List Node} {x : Node}
    (hrep : Rep m (l1 ++ x :: l2)) :
    ∃ m1, freeElement x.addr m = .ok m1 ∧
      Rep m1 (coalesce l1 x l2) ∧
      m1.next = cursorAfterFree m.next x l2 ∧
      m1.bytesFree = m.bytesFree + x.size ∧
      Kept m m1 (l1 ++ x :: l2) (coalesce l1 x l2) := by
  have hx := seg_mid hrep.seg
  have hrep0 := rep_payload x.size 0 x.ptr (m.bytesFree + x.size) hrep
  obtain ⟨hx1, hx2, -, -, -⟩ := nodup_mid hrep.nodup
  have hk0 : Kept m { m with
        heap := (store m.heap x.addr ⟨x.size, 0, x.ptr, lastAddr none l1, firstAddr l2 none⟩),
        bytesFree := m.bytesFree + x.size }
      (l1 ++ x :: l2) (l1 ++ ⟨x.addr, x.size, 0, x.ptr⟩ :: l2) := by
    refine ⟨rfl, rfl, rfl, ?_, ?_, ?_⟩
    · intro a ha
      have hne : a ≠ x.addr := fun h => ha (by simp [h])
      simp [store_apply, hne]
    · intro a ha hna
      exact absurd (by simpa using ha) hna
    · intro a ha
      simpa using ha
  obtain ⟨m2, hm2, hrep2, hnext2, hbf2, hk2⟩ := forwardBlock_rep hrep0
  obtain ⟨m3, hm3, hrep3, hnext3, hbf3, hk3⟩ := backwardsBlock_rep hrep2
  rw [absorbNext_addr] at hm3
  refine ⟨m3, ?_, hrep3, ?_, ?_, kept_trans hk0 (kept_trans hk2 hk3)⟩
  · have e : freeElement x.addr m =
        (forwardBlock x.addr { m with
          heap := (store m.heap x.addr ⟨x.size, 0, x.ptr, lastAddr none l1, firstAddr l2 none⟩),
          bytesFree := m.bytesFree + x.size } >>= fun m2 => backwardsBlock x.addr m2) := by
      unfold freeElement
      rw [load_of_eq hx]
      rfl
    rw [e]
    have hm2' : forwardBlock x.addr { m with
          heap := (store m.heap x.addr ⟨x.size, 0, x.ptr, lastAddr none l1, firstAddr l2 none⟩),
          bytesFree := m.bytesFree + x.size } = Result.ok m2 := hm2
    rw [hm2']
    exact hm3
  · rw [hnext3, hnext2]
    rcases l2 with _ | ⟨y, l2⟩
    · rfl
    · rfl
  · rw [hbf3, hbf2]

/-! ## `nextMalloc` on a represented state -/

theorem rep_cursor {m : Memory} {l : List Node} (c : Option Nat) (bf : Nat) (hrep : Rep m l) :
    Rep { m with next := c, bytesFree := bf } l :=
  ⟨hrep.seg, hrep.nodup, hrep.tail, hrep.head, hrep.fresh⟩

theorem carve_rep {m : Memory} {l1 l2 : List Node} {x : Node} {r : Nat}
    (hrep : Rep m (l1 ++ x :: l2)) (hle : r ≤ x.size) :
    ∃ m1, carve x.addr r m = .ok (m1, some x.ptr) ∧
      Rep m1 (carveList m.brk l1 x l2 r) ∧
      m1.next = (if r < x.size then some x.addr else firstAddr l2 none) ∧
      m1.bytesFree = m.bytesFree - r ∧ m1.memStart = m.memStart ∧
      m1.poolSize = m.poolSize ∧ m.brk ≤ m1.brk ∧
      (∀ a, a ∉ addrs (l1 ++ x :: l2) → a < m.brk → m1.heap a = m.heap a) := by
  by_cases hlt : r < x.size
  · obtain ⟨m1, hm1, hrep1, hnext, hbf, hms, hps, hbrk, hfr⟩ := allocateBlock_split hrep hlt
    have hn := seg_mid hrep1.seg
    refine ⟨{ m1 with next := some x.addr, bytesFree := m1.bytesFree - r }, ?_, ?_, ?_, ?_,
      hms, hps, ?_, ?_⟩
    · simp [carve, hm1, deref, load, hn]
    · simpa [carveList, hlt] using rep_cursor _ _ hrep1
    · simp [hlt]
    · simp [hbf]
    · show m.brk ≤ m1.brk
      omega
    · intro a ha hab
      exact hfr a ha (Nat.ne_of_lt hab)
  · have heq : x.size = r := by omega
    obtain ⟨m1, hm1, hrep1, hnext, hbf, hms, hps, hbrk, hfr⟩ := allocateBlock_exact hrep heq
    have hn := seg_mid hrep1.seg
    refine ⟨{ m1 with next := firstAddr l2 none, bytesFree := m1.bytesFree - r }, ?_, ?_, ?_, ?_,
      hms, hps, ?_, ?_⟩
    · simp [carve, hm1, deref, load, hn, heq]
    · simpa [carveList, hlt] using rep_cursor _ _ hrep1
    · simp [hlt]
    · simp [hbf]
    · show m.brk ≤ m1.brk
      omega
    · intro a ha _
      exact hfr a ha

theorem mem_addrs_split {l : List Node} {a : Nat} (h : a ∈ addrs l) :
    ∃ l1 x l2, l = l1 ++ x :: l2 ∧ x.addr = a := by
  simp only [addrs, List.mem_map] at h
  obtain ⟨x, hx, rfl⟩ := h
  obtain ⟨l1, l2, rfl⟩ := List.append_of_mem hx
  exact ⟨l1, x, l2, rfl, rfl⟩

theorem firstAddr_mem (l : List Node) {e : Nat} (h : firstAddr l none = some e) : e ∈ addrs l := by
  rcases l with _ | ⟨x, l⟩
  · cases h
  · simp at h
    simp [h]

theorem heap_of_mem {m : Memory} {l : List Node} (hrep : Rep m l) {a : Nat} (h : a ∈ addrs l) :
    m.heap a ≠ none := by
  obtain ⟨l1, x, l2, rfl, rfl⟩ := mem_addrs_split h
  rw [seg_mid hrep.seg]
  simp

/-- When the search loop returns, it has carved from a free node of the list
that is large enough. -/
theorem scan_ok {m : Memory} {l : List Node} {r : Nat} (hrep : Rep m l)
    {res : Memory × Option Nat} :
    ∀ (fuel : Nat) (element : Option Nat),
      (∀ e, element = some e → e ∈ addrs l ∨ m.heap e = none) →
      scan r m fuel element = .ok res →
      ∃ l1 x l2, l = l1 ++ x :: l2 ∧ x.alloc = 0 ∧ r ≤ x.size ∧ carve x.addr r m = .ok res := by
  intro fuel
  induction fuel with
  | zero =>
    intro element _ h
    simp [scan] at h
  | succ k ih =>
    intro element hel h
    have key : ∀ e, e ∈ addrs l ∨ m.heap e = none →
        (match m.heap e with
          | none => Result.fault
          | some el =>
            if el.alloc = 0 ∧ el.size ≥ r then carve e r m
            else if el.next ≠ m.next then scan r m k el.next
            else Result.fault) = Result.ok res →
        ∃ l1 x l2, l = l1 ++ x :: l2 ∧ x.alloc = 0 ∧ r ≤ x.size ∧ carve x.addr r m = .ok res := by
      intro e he h
      rcases he with he | he
      · obtain ⟨l1, x, l2, rfl, rfl⟩ := mem_addrs_split he
        have hx := seg_mid hrep.seg
        rw [hx] at h
        simp only at h
        by_cases hfit : x.alloc = 0 ∧ x.size ≥ r
        · rw [if_pos hfit] at h
          exact ⟨l1, x, l2, rfl, hfit.1, hfit.2, h⟩
        · rw [if_neg hfit] at h
          by_cases hn : firstAddr l2 none ≠ m.next
          · rw [if_pos hn] at h
            refine ih _ ?_ h
            intro e he
            left
            have := firstAddr_mem l2 he
            simp [this]
          · rw [if_neg hn] at h
            cases h
      · rw [he] at h
        cases h
    rcases element with _ | e
    · simp only [scan] at h
      rcases hl : l with _ | ⟨x, l'⟩
      · subst hl
        have ht := hrep.tail
        simp only [firstAddr_nil] at ht
        rw [ht] at h
        cases h
      · have ht := hrep.tail
        rw [hl, firstAddr_cons] at ht
        rw [ht] at h
        simp only at h
        rw [← hl]
        exact key x.addr (Or.inl (by simp [hl])) h
    · simp only [scan] at h
      exact key e (hel e rfl) h

/-! ## `nextFree`, `nextinit` and the walk on a represented state -/

/-- What the address lookup returns on a list: the first node whose start
pointer is `b`, or NULL when there is none. -/
theorem findByAddress_ok {h : Heap} {b : Nat} {res : Option Nat} :
    ∀ (l : List Node) (p : Option Nat) (fuel : Nat), Seg h p l none →
      findByAddress b h fuel (firstAddr l none) = .ok res →
      (res = none ∧ ∀ y ∈ l, y.ptr ≠ b) ∨
        ∃ l1 x l2, l = l1 ++ x :: l2 ∧ res = some x.addr ∧ x.ptr = b ∧ ∀ y ∈ l1, y.ptr ≠ b := by
  intro l
  induction l with
  | nil =>
    intro p fuel _ hf
    rcases fuel with _ | k
    · simp [findByAddress] at hf
    · simp [findByAddress] at hf
      left
      exact ⟨hf.symm, by simp⟩
  | cons x xs ih =>
    intro p fuel hs hf
    rcases fuel with _ | k
    · simp [findByAddress] at hf
    · obtain ⟨hx, hxs⟩ := hs
      simp only [firstAddr_cons, findByAddress, hx] at hf
      by_cases hb : x.ptr = b
      · rw [if_pos hb] at hf
        right
        refine ⟨[], x, xs, rfl, ?_, hb, by simp⟩
        cases hf
        rfl
      · rw [if_neg hb] at hf
        rcases ih _ k hxs hf with ⟨h1, h2⟩ | ⟨l1, y, l2, h1, h2, h3, h4⟩
        · left
          refine ⟨h1, ?_⟩
          intro y hy
          simp at hy
          rcases hy with rfl | hy
          · exact hb
          · exact h2 y hy
        · right
          refine ⟨x :: l1, y, l2, by simp [h1], h2, h3, ?_⟩
          intro z hz
          simp at hz
          rcases hz with rfl | hz
          · exact hb
          · exact h4 z hz

/-- The address lookup returns once the fuel exceeds the length of the list. -/
theorem findByAddress_total {h : Heap} {b : Nat} :
    ∀ (l : List Node) (p : Option Nat) (fuel : Nat), Seg h p l none → l.length < fuel →
      ∃ res, findByAddress b h fuel (firstAddr l none) = .ok res := by
  intro l
  induction l with
  | nil =>
    intro p fuel _ hlen
    rcases fuel with _ | k
    · simp at hlen
    · exact ⟨none, by simp [findByAddress]⟩
  | cons x xs ih =>
    intro p fuel hs hlen
    rcases fuel with _ | k
    · simp at hlen
    · obtain ⟨hx, hxs⟩ := hs
      simp only [firstAddr_cons, findByAddress, hx]
      by_cases hb : x.ptr = b
      · exact ⟨some x.addr, by rw [if_pos hb]⟩
      · rw [if_neg hb]
        exact ih _ k hxs (by simpa using hlen)

/-- When `nextFree` returns, either the block was already free and nothing
changed, or `freeElement` ran on the first node of the list that starts at
`b`, an allocated one. -/
theorem nextFree_ok {m m1 : Memory} {l : List Node} {fuel b : Nat} (hrep : Rep m l)
    (h : nextFree fuel b m = .ok m1) :
    (m1 = m ∧ ∃ x ∈ l, x.ptr = b ∧ x.alloc = 0) ∨
      ∃ l1 x l2, l = l1 ++ x :: l2 ∧ x.alloc ≠ 0 ∧ x.ptr = b ∧ (∀ y ∈ l1, y.ptr ≠ b) ∧
        freeElement x.addr m = .ok m1 := by
  unfold nextFree at h
  obtain ⟨found, hf, h⟩ := bind_eq_ok h
  rw [hrep.tail] at hf
  rcases findByAddress_ok l none fuel hrep.seg hf with ⟨rfl, -⟩ | ⟨l1, x, l2, rfl, rfl, hb, hpre⟩
  · simp [deref] at h
  · have hx := seg_mid hrep.seg
    simp only [deref, bind_ok, load_of_eq hx] at h
    by_cases ha : x.alloc = 0
    · rw [if_pos ha] at h
      left
      cases h
      exact ⟨rfl, x, by simp, hb, ha⟩
    · rw [if_neg ha] at h
      right
      exact ⟨l1, x, l2, rfl, ha, hb, hpre, h⟩

theorem nextinit_eq (junk : Element) (base n : Nat) (m0 : Memory) (hn : 1 ≤ n) :
    ∃ h0 : Heap, nextinit junk base n m0 =
      { memStart := some base, poolSize := n, head := some m0.brk, tail := some m0.brk,
        next := some m0.brk, bytesFree := n,
        heap := store h0 m0.brk { junk with size := n, alloc := 0, ptr := base },
        brk := m0.brk + 1 } := by
  have h1 : ¬ n < 1 := by omega
  by_cases hm : m0.memStart = none
  · exact ⟨m0.heap, by simp [nextinit, h1, hm]⟩
  · exact ⟨fun _ => none, by simp [nextinit, h1, hm, clean]⟩

theorem nextinit_rep (junk : Element) (base n : Nat) (m0 : Memory) (hn : 1 ≤ n)
    (hp : junk.prev = none) (hq : junk.next = none) :
    Rep (nextinit junk base n m0) [⟨m0.brk, n, 0, base⟩] ∧
      (nextinit junk base n m0).next = some m0.brk ∧
      (nextinit junk base n m0).bytesFree = n ∧
      (nextinit junk base n m0).memStart = some base ∧
      (nextinit junk base n m0).poolSize = n ∧
      (nextinit junk base n m0).brk = m0.brk + 1 := by
  obtain ⟨h0, he⟩ := nextinit_eq junk base n m0 hn
  rw [he]
  refine ⟨⟨?_, ?_, ?_, ?_, ?_⟩, rfl, rfl, rfl, rfl, rfl⟩
  · simp [seg_cons, hp, hq]
  · simp
  · simp
  · simp
  · simp

/-- Walking a represented state from `tail` yields its list. -/
theorem walk_seg {h : Heap} :
    ∀ (l : List Node) (p : Option Nat), Seg h p l none →
      walk h l.length (firstAddr l none) = some l := by
  intro l
  induction l with
  | nil =>
    intro p _
    simp [walk]
  | cons x xs ih =>
    intro p hs
    obtain ⟨hx, hxs⟩ := hs
    simp [walk, hx, ih _ hxs]

theorem blocks_of_rep {m : Memory} {l : List Node} (hrep : Rep m l) :
    blocks l.length m = some l := by
  unfold blocks
  rw [hrep.tail]
  exact walk_seg l none hrep.seg

/-! ## The invariants on lists -/

@[simp] theorem contig_nil (o : Nat) : Contig o [] := trivial
@[simp] theorem contig_cons (o : Nat) (x : Node) (xs : List Node) :
    Contig o (x :: xs) ↔ x.ptr = o ∧ Contig (o + x.size) xs := Iff.rfl
@[simp] theorem total_nil : total [] = 0 := rfl
@[simp] theorem total_cons (x : Node) (xs : List Node) : total (x :: xs) = x.size + total xs := rfl
@[simp] theorem freeSum_nil : freeSum [] = 0 := rfl
@[simp] theorem freeSum_cons (x : Node) (xs : List Node) :
    freeSum (x :: xs) = (if x.alloc = 0 then x.size else 0) + freeSum xs := rfl

@[simp] theorem total_append (l1 l2 : List Node) : total (l1 ++ l2) = total l1 + total l2 := by
  induction l1 with
  | nil => simp
  | cons x xs ih => simp [ih, Nat.add_assoc]

@[simp] theorem freeSum_append (l1 l2 : List Node) :
    freeSum (l1 ++ l2) = freeSum l1 + freeSum l2 := by
  induction l1 with
  | nil => simp
  | cons x xs ih => simp [ih, Nat.add_assoc]

@[simp] theorem contig_append (o : Nat) (l1 l2 : List Node) :
    Contig o (l1 ++ l2) ↔ Contig o l1 ∧ Contig (o + total l1) l2 := by
  induction l1 generalizing o with
  | nil => simp
  | cons x xs ih => simp [ih, Nat.add_assoc, and_assoc]

/-- The pairs the coalescing invariant forbids are those of two free blocks. -/
theorem noAdj_iff (l : List Node) :
    NoAdjFree l ↔ l.Chain' (fun a b => ¬(a.alloc = 0 ∧ b.alloc = 0)) := by
  induction l with
  | nil => simp [NoAdjFree]
  | cons x xs ih =>
    rcases xs with _ | ⟨y, r⟩
    · simp [NoAdjFree]
    · simp only [NoAdjFree, List.chain'_cons, ih]

theorem noAdj_mid (l1 l2 : List Node) (x : Node) :
    NoAdjFree (l1 ++ x :: l2) ↔
      NoAdjFree l1 ∧ NoAdjFree l2 ∧
        (∀ z ∈ l1.getLast?, ¬(z.alloc = 0 ∧ x.alloc = 0)) ∧
        (∀ y ∈ l2.head?, ¬(x.alloc = 0 ∧ y.alloc = 0)) := by
  simp only [noAdj_iff, List.chain'_append, List.chain'_cons']
  simp
  tauto

theorem noAdj_mid2 (l1 l2 : List Node) (a b : Node) :
    NoAdjFree (l1 ++ a :: b :: l2) ↔
      NoAdjFree l1 ∧ NoAdjFree l2 ∧
        (∀ z ∈ l1.getLast?, ¬(z.alloc = 0 ∧ a.alloc = 0)) ∧ ¬(a.alloc = 0 ∧ b.alloc = 0) ∧
        (∀ y ∈ l2.head?, ¬(b.alloc = 0 ∧ y.alloc = 0)) := by
  simp only [noAdj_iff, List.chain'_append, List.chain'_cons']
  simp
  tauto

theorem noAdj_snoc (L : List Node) (z : Node) :
    NoAdjFree (L ++ [z]) ↔ NoAdjFree L ∧ ∀ w ∈ L.getLast?, ¬(w.alloc = 0 ∧ z.alloc = 0) := by
  rw [noAdj_mid]
  simp [NoAdjFree]

theorem noAdj_cons (x : Node) (l2 : List Node) :
    NoAdjFree (x :: l2) ↔ NoAdjFree l2 ∧ ∀ y ∈ l2.head?, ¬(x.alloc = 0 ∧ y.alloc = 0) := by
  have h := noAdj_mid [] l2 x
  simpa [NoAdjFree] using h

/-! ### Carving keeps the invariants -/

theorem carveList_contig {o fresh r : Nat} {l1 l2 : List Node} {x : Node}
    (h : Contig o (l1 ++ x :: l2)) :
    Contig o (carveList fresh l1 x l2 r) := by
  unfold carveList
  split
  · simp only [contig_append, contig_cons] at h ⊢
    have e : o + total l1 + r + (x.size - r) = o + total l1 + x.size := by omega
    rw [e]
    exact ⟨h.1, h.2.1, by omega, h.2.2⟩
  · simpa using h

theorem carveList_total (fresh r : Nat) (l1 l2 : List Node) (x : Node) :
    total (carveList fresh l1 x l2 r) = total (l1 ++ x :: l2) := by
  unfold carveList
  split
  · simp
    omega
  · simp

theorem carveList_freeSum {fresh r : Nat} {l1 l2 : List Node} {x : Node} (hle : r ≤ x.size)
    (hx : x.alloc = 0) :
    freeSum (carveList fresh l1 x l2 r) = freeSum (l1 ++ x :: l2) - r := by
  unfold carveList
  split
  · simp [hx]
    omega
  · have : x.size = r := by omega
    simp [hx, this]
    omega

theorem carveList_noAdj {fresh r : Nat} {l1 l2 : List Node} {x : Node}
    (h : NoAdjFree (l1 ++ x :: l2)) : NoAdjFree (carveList fresh l1 x l2 r) := by
  unfold carveList
  rw [noAdj_mid] at h
  split
  · rw [noAdj_mid2]
    simp
    tauto
  · rw [noAdj_mid]
    simp
    tauto

/-! ### Releasing keeps the invariants -/

theorem absorbNext_nil (x : Node) : absorbNext x [] = (x, []) := rfl

theorem absorbNext_cons (x y : Node) (r2 : List Node) :
    absorbNext x (y :: r2) =
      if y.alloc = 0 then (⟨x.addr, x.size + y.size, x.alloc, x.ptr⟩, r2) else (x, y :: r2) := rfl

/-- The shapes of the list after a release, by the state of the two
neighbours. -/
theorem coalesce_cases (P : List Node → List Node → Prop)
    (h1 : P [] [])
    (h2 : ∀ y r2, y.alloc = 0 → P [] (y :: r2))
    (h3 : ∀ y r2, y.alloc ≠ 0 → P [] (y :: r2))
    (h4 : ∀ L z, z.alloc = 0 → P (L ++ [z]) [])
    (h5 : ∀ L z, z.alloc ≠ 0 → P (L ++ [z]) [])
    (h6 : ∀ L z y r2, z.alloc = 0 → y.alloc = 0 → P (L ++ [z]) (y :: r2))
    (h7 : ∀ L z y r2, z.alloc = 0 → y.alloc ≠ 0 → P (L ++ [z]) (y :: r2))
    (h8 : ∀ L z y r2, z.alloc ≠ 0 → y.alloc = 0 → P (L ++ [z]) (y :: r2))
    (h9 : ∀ L z y r2, z.alloc ≠ 0 → y.alloc ≠ 0 → P (L ++ [z]) (y :: r2))
    (l1 l2 : List Node) : P l1 l2 := by
  rcases nil_or_snoc l1 with rfl | ⟨L, z, rfl⟩
  · rcases l2 with _ | ⟨y, r2⟩
    · exact h1
    · by_cases hy : y.alloc = 0
      · exact h2 y r2 hy
      · exact h3 y r2 hy
  · rcases l2 with _ | ⟨y, r2⟩
    · by_cases hz : z.alloc = 0
      · exact h4 L z hz
      · exact h5 L z hz
    · by_cases hz : z.alloc = 0 <;> by_cases hy : y.alloc = 0
      · exact h6 L z y r2 hz hy
      · exact h7 L z y r2 hz hy
      · exact h8 L z y r2 hz hy
      · exact h9 L z y r2 hz hy

theorem coalesce_total (l1 l2 : List Node) (x : Node) :
    total (coalesce l1 x l2) = total (l1 ++ x :: l2) := by
  refine coalesce_cases (fun l1 l2 => total (coalesce l1 x l2) = total (l1 ++ x :: l2))
    ?_ ?_ ?_ ?_ ?_ ?_ ?_ ?_ ?_ l1 l2 <;> intros <;>
    simp [coalesce, absorbNext_nil, absorbNext_cons, absorbPrev_nil, absorbPrev_snoc, *] <;> omega

theorem coalesce_freeSum (l1 l2 : List Node) (x : Node) (hx : x.alloc ≠ 0) :
    freeSum (coalesce l1 x l2) = freeSum (l1 ++ x :: l2) + x.size := by
  refine coalesce_cases
    (fun l1 l2 => freeSum (coalesce l1 x l2) = freeSum (l1 ++ x :: l2) + x.size)
    ?_ ?_ ?_ ?_ ?_ ?_ ?_ ?_ ?_ l1 l2 <;> intros <;>
    simp [coalesce, absorbNext_nil, absorbNext_cons, absorbPrev_nil, absorbPrev_snoc, *] <;> omega

theorem coalesce_contig {o : Nat} (l1 l2 : List Node) (x : Node) :
    Contig o (l1 ++ x :: l2) → Contig o (coalesce l1 x l2) := by
  refine coalesce_cases
    (fun l1 l2 => Contig o (l1 ++ x :: l2) → Contig o (coalesce l1 x l2))
    ?_ ?_ ?_ ?_ ?_ ?_ ?_ ?_ ?_ l1 l2 <;> intros <;>
    simp_all [coalesce, absorbNext_nil, absorbNext_cons, absorbPrev_nil, absorbPrev_snoc,
      Nat.add_assoc, Nat.add_comm, Nat.add_left_comm]

theorem coalesce_noAdj (l1 l2 : List Node) (x : Node) :
    NoAdjFree (l1 ++ x :: l2) → NoAdjFree (coalesce l1 x l2) := by
  refine coalesce_cases
    (fun l1 l2 => NoAdjFree (l1 ++ x :: l2) → NoAdjFree (coalesce l1 x l2))
    ?_ ?_ ?_ ?_ ?_ ?_ ?_ ?_ ?_ l1 l2 <;> intros <;>
    simp_all [coalesce, absorbNext_nil, absorbNext_cons, absorbPrev_nil, absorbPrev_snoc,
      noAdj_mid, noAdj_mid2, noAdj_snoc, noAdj_cons, NoAdjFree]

/-! ## The invariants hold in every state reached from a cell with NULL links -/

theorem coalesce_self_mem (l1 l2 : List Node) (x : Node) : x.addr ∈ addrs (coalesce l1 x l2) := by
  refine coalesce_cases (fun l1 l2 => x.addr ∈ addrs (coalesce l1 x l2))
    ?_ ?_ ?_ ?_ ?_ ?_ ?_ ?_ ?_ l1 l2 <;> intros <;>
    simp [coalesce, absorbNext_nil, absorbNext_cons, absorbPrev_nil, absorbPrev_snoc, *]

theorem inv_init (junk : Element) (base n : Nat) (m0 : Memory) (hn : 1 ≤ n)
    (hp : junk.prev = none) (hq : junk.next = none) :
    Inv base n (nextinit junk base n m0) [⟨m0.brk, n, 0, base⟩] := by
  obtain ⟨hrep, hnext, hbf, -, -, -⟩ := nextinit_rep junk base n m0 hn hp hq
  refine ⟨hrep, ?_, by simp, by simp, by simp [NoAdjFree], by simp [hbf]⟩
  intro c hc
  rw [hnext] at hc
  cases hc
  simp

theorem inv_carve {base n r : Nat} {m m1 : Memory} {l1 l2 : List Node} {x : Node}
    {p : Option Nat} (hinv : Inv base n m (l1 ++ x :: l2)) (hx : x.alloc = 0) (hle : r ≤ x.size)
    (h : carve x.addr r m = .ok (m1, p)) :
    Inv base n m1 (carveList m.brk l1 x l2 r) ∧ p = some x.ptr := by
  obtain ⟨m2, hm2, hrep2, hnext, hbf, -, -, -, -⟩ := carve_rep hinv.rep hle
  rw [hm2] at h
  cases h
  refine ⟨⟨hrep2, ?_, carveList_contig hinv.contig, ?_, carveList_noAdj hinv.noAdj, ?_⟩, rfl⟩
  · intro c hc
    left
    rw [hnext] at hc
    unfold carveList
    by_cases hlt : r < x.size
    · simp only [hlt, if_true] at hc ⊢
      cases hc
      simp
    · simp only [hlt, if_false] at hc ⊢
      have := firstAddr_mem l2 hc
      simp [this]
  · rw [carveList_total]
    exact hinv.total
  · rw [hbf, hinv.free, carveList_freeSum hle hx]

theorem inv_malloc {base n fuel r : Nat} {m m1 : Memory} {l : List Node} {p : Option Nat}
    (hinv : Inv base n m l) (h : nextMalloc fuel r m = .ok (m1, p)) :
    ∃ l1, Inv base n m1 l1 := by
  unfold nextMalloc at h
  by_cases hlt : m.bytesFree < r
  · rw [if_pos hlt] at h
    cases h
    exact ⟨l, hinv⟩
  · rw [if_neg hlt] at h
    have hcur : ∀ e, m.next = some e → e ∈ addrs l ∨ m.heap e = none := by
      intro e he
      rcases hinv.cur e he with h1 | h1
      · exact Or.inl h1
      · exact Or.inr h1.1
    obtain ⟨l1, x, l2, rfl, hx, hle, hc⟩ := scan_ok hinv.rep fuel m.next hcur h
    exact ⟨_, (inv_carve hinv hx hle hc).1⟩

theorem inv_freeElement {base n : Nat} {m m1 : Memory} {l1 l2 : List Node} {x : Node}
    (hinv : Inv base n m (l1 ++ x :: l2)) (hx : x.alloc ≠ 0)
    (h : freeElement x.addr m = .ok m1) :
    Inv base n m1 (coalesce l1 x l2) := by
  obtain ⟨m2, hm2, hrep2, hnext, hbf, hk⟩ := freeElement_rep hinv.rep
  rw [hm2] at h
  cases h
  refine ⟨hrep2, ?_, coalesce_contig _ _ _ hinv.contig, ?_, coalesce_noAdj _ _ _ hinv.noAdj, ?_⟩
  · intro c hc
    rw [hnext] at hc
    have hold : m.next = some c → c ∈ addrs (coalesce l1 x l2) ∨ (m1.heap c = none ∧ c < m1.brk) := by
      intro hmc
      rw [hk.brk]
      rcases hinv.cur c hmc with h1 | ⟨h1, h2⟩
      · by_cases hin : c ∈ addrs (coalesce l1 x l2)
        · exact Or.inl hin
        · exact Or.inr ⟨hk.dead c h1 hin, hinv.rep.fresh c h1⟩
      · right
        refine ⟨?_, h2⟩
        rw [hk.frame c (fun hm => heap_of_mem hinv.rep hm h1)]
        exact h1
    rcases l2 with _ | ⟨y, r2⟩
    · exact hold hc
    · simp only [cursorAfterFree] at hc
      split at hc
      · cases hc
        exact Or.inl (coalesce_self_mem _ _ _)
      · exact hold hc
  · rw [coalesce_total]
    exact hinv.total
  · rw [hbf, hinv.free, coalesce_freeSum _ _ _ hx]

theorem inv_free {base n fuel b : Nat} {m m1 : Memory} {l : List Node}
    (hinv : Inv base n m l) (h : nextFree fuel b m = .ok m1) :
    ∃ l1, Inv base n m1 l1 := by
  rcases nextFree_ok hinv.rep h with ⟨rfl, -⟩ | ⟨l1, x, l2, rfl, hx, -, -, hf⟩
  · exact ⟨l, hinv⟩
  · exact ⟨_, inv_freeElement hinv hx hf⟩

/-- Every state reached from a node cell with NULL links has a block list on
which the invariants hold. -/
theorem null_inv {base n : Nat} {m : Memory} (h : ReachableNull base n m) :
    ∃ l, Inv base n m l := by
  induction h with
  | init junk m0 hn hp hq => exact ⟨_, inv_init junk base n m0 hn hp hq⟩
  | malloc fuel r _ hm ih =>
    obtain ⟨l, hl⟩ := ih
    exact inv_malloc hl hm
  | free fuel b _ hf ih =>
    obtain ⟨l, hl⟩ := ih
    exact inv_free hl hf

/-! ## Scenario states are reachable -/

theorem null_fresh (n : Nat) (hn : 1 ≤ n) : ReachableNull 1000 n (fresh n) :=
  ReachableNull.init zeroed uninit hn rfl rfl

theorem null_afterMalloc {base n : Nat} {m : Memory} (fuel r : Nat)
    (h : ReachableNull base n m) : ReachableNull base n (afterMalloc fuel r m) := by
  unfold afterMalloc
  split
  · rename_i m1 p he
    exact ReachableNull.malloc fuel r h he
  · exact h

theorem null_afterFree {base n : Nat} {m : Memory} (fuel b : Nat)
    (h : ReachableNull base n m) : ReachableNull base n (afterFree fuel b m) := by
  unfold afterFree
  split
  · rename_i m1 he
    exact ReachableNull.free fuel b h he
  · exact h

theorem null_fragmented : ReachableNull 1000 100 fragmented :=
  null_afterFree _ _ (null_afterFree _ _ (null_afterMalloc _ _
    (null_afterMalloc _ _ (null_afterMalloc _ _ (null_fresh 100 (by decide))))))

theorem null_cursorOnTail : ReachableNull 1000 100 cursorOnTail :=
  null_afterFree _ _ (null_afterFree _ _ (null_afterMalloc _ _
    (null_afterFree _ _ (null_afterMalloc _ _ (null_afterMalloc _ _
      (null_afterMalloc _ _ (null_fresh 100 (by decide))))))))

theorem fast_rejection_aux (fuel r : Nat) (m : Memory) (h : m.bytesFree < r) :
    nextMalloc fuel r m = .ok (m, none) := by
  simp [nextMalloc, h]

theorem null_tailReleased : ReachableNull 1000 100 tailReleased :=
  null_afterFree _ _ (null_afterMalloc _ _ (null_afterMalloc _ _
    (null_afterMalloc _ _ (null_fresh 100 (by decide)))))

/-- A run that starts from a node cell with NULL links is a run. -/
theorem reachable_of_null {base n : Nat} {m : Memory} (h : ReachableNull base n m) :
    Reachable base n m := by
  induction h with
  | init junk m0 hn _ _ => exact Reachable.init junk m0 hn
  | malloc fuel r _ hm ih => exact Reachable.malloc fuel r ih hm
  | free fuel b _ hf ih => exact Reachable.free fuel b ih hf

theorem reachable_afterMalloc {base n : Nat} {m : Memory} (fuel r : Nat)
    (h : Reachable base n m) : Reachable base n (afterMalloc fuel r m) := by
  unfold afterMalloc
  split
  · rename_i m1 p he
    exact Reachable.malloc fuel r h he
  · exact h

theorem reachable_afterFree {base n : Nat} {m : Memory} (fuel b : Nat)
    (h : Reachable base n m) : Reachable base n (afterFree fuel b m) := by
  unfold afterFree
  split
  · rename_i m1 he
    exact Reachable.free fuel b h he
  · exact h

theorem reachable_cursorOnTail : Reachable 1000 100 cursorOnTail :=
  reachable_of_null null_cursorOnTail

/-! ## Next-fit order of the search loop -/

theorem fits_iff (r : Nat) (x : Node) : fits r x = true ↔ x.alloc = 0 ∧ x.size ≥ r := by
  simp [fits]

/-- Scanning a stretch of the list that holds a fitting block carves from the
first one. -/
theorem scan_suffix_found {m : Memory} {r : Nat} {x : Node} {res : Memory × Option Nat} :
    ∀ (suf pre : List Node) (fuel : Nat), Rep m (pre ++ suf) → suf.find? (fits r) = some x →
      scan r m fuel (firstAddr suf none) = .ok res → carve x.addr r m = .ok res := by
  intro suf
  induction suf with
  | nil =>
    intro pre fuel _ hf
    simp at hf
  | cons y suf ih =>
    intro pre fuel hrep hf hs
    rcases fuel with _ | k
    · simp [scan] at hs
    · have hy := seg_mid hrep.seg
      simp only [firstAddr_cons, scan, hy] at hs
      by_cases hfit : y.alloc = 0 ∧ y.size ≥ r
      · rw [if_pos hfit] at hs
        have : fits r y = true := (fits_iff r y).2 hfit
        simp [List.find?_cons, this] at hf
        rw [← hf]
        exact hs
      · rw [if_neg hfit] at hs
        have hnf : fits r y = false := by
          rcases hb : fits r y with _ | _
          · rfl
          · exact absurd ((fits_iff r y).1 hb) hfit
        simp only [List.find?_cons, hnf] at hf
        by_cases hn : firstAddr suf none ≠ m.next
        · rw [if_pos hn] at hs
          exact ih (pre ++ [y]) k (by simpa using hrep) hf hs
        · rw [if_neg hn] at hs
          cases hs

/-- Scanning a stretch without a fitting block up to `head` goes on from NULL,
that is from `tail`. -/
theorem scan_suffix_none {m : Memory} {r : Nat} {res : Memory × Option Nat} :
    ∀ (suf pre : List Node) (fuel : Nat), Rep m (pre ++ suf) → suf ≠ [] →
      suf.find? (fits r) = none →
      scan r m fuel (firstAddr suf none) = .ok res → ∃ fuel1, scan r m fuel1 none = .ok res := by
  intro suf
  induction suf with
  | nil =>
    intro pre fuel _ hne
    exact absurd rfl hne
  | cons y suf ih =>
    intro pre fuel hrep _ hf hs
    rcases fuel with _ | k
    · simp [scan] at hs
    · have hy := seg_mid hrep.seg
      simp only [firstAddr_cons, scan, hy] at hs
      have hnf : fits r y = false := by
        rcases hb : fits r y with _ | _
        · rfl
        · simp [List.find?_cons, hb] at hf
      have hfit : ¬(y.alloc = 0 ∧ y.size ≥ r) := by
        intro h
        rw [(fits_iff r y).2 h] at hnf
        cases hnf
      simp only [List.find?_cons, hnf] at hf
      rw [if_neg hfit] at hs
      by_cases hn : firstAddr suf none ≠ m.next
      · rw [if_pos hn] at hs
        rcases suf with _ | ⟨z, suf⟩
        · exact ⟨k, hs⟩
        · exact ih (pre ++ [y]) k (by simpa using hrep) (by simp) hf hs
      · rw [if_neg hn] at hs
        cases hs

/-- A scan that starts at NULL and returns carves from the first fitting block
of the list. -/
theorem scan_from_null {m : Memory} {l : List Node} {r fuel : Nat}
    {res : Memory × Option Nat} (hrep : Rep m l) (hs : scan r m fuel none = .ok res) :
    ∃ x, l.find? (fits r) = some x ∧ carve x.addr r m = .ok res := by
  obtain ⟨l1, x, l2, hl, hx, hle, -⟩ := scan_ok hrep fuel none (by simp) hs
  have hsome : (l.find? (fits r)).isSome := by
    rw [List.find?_isSome]
    exact ⟨x, by simp [hl], (fits_iff r x).2 ⟨hx, hle⟩⟩
  obtain ⟨y, hy⟩ := Option.isSome_iff_exists.1 hsome
  refine ⟨y, hy, ?_⟩
  have hs' : scan r m fuel (firstAddr l none) = .ok res := by
    rcases fuel with _ | k
    · simp [scan] at hs
    · rcases l with _ | ⟨z, l⟩
      · simp at hl
      · simp only [scan, hrep.tail, firstAddr_cons] at hs ⊢
        exact hs
  exact scan_suffix_found l [] fuel (by simpa using hrep) hy hs'

theorem scanOrder_split {l1 l2 : List Node} {x : Node} (h : x.addr ∉ addrs l1) :
    scanOrder (l1 ++ x :: l2) (some x.addr) = x :: l2 ++ l1 := by
  have hd : ∀ (l1 : List Node), x.addr ∉ addrs l1 →
      (l1 ++ x :: l2).dropWhile (fun y => y.addr != x.addr) = x :: l2 ∧
      (l1 ++ x :: l2).takeWhile (fun y => y.addr != x.addr) = l1 := by
    intro l1
    induction l1 with
    | nil => simp [List.dropWhile_cons, List.takeWhile_cons]
    | cons y ys ih =>
      intro hy
      simp at hy
      have hne : y.addr ≠ x.addr := fun e => hy.1 e.symm
      have := ih hy.2
      simp [List.dropWhile_cons, List.takeWhile_cons, hne, this]
  unfold scanOrder
  simp only [(hd l1 h).1, (hd l1 h).2]

/-- When `nextMalloc` returns a block, it has carved from the first fitting
block in circular order from the cursor. -/
theorem scan_first_fit {base n : Nat} {m : Memory} {l : List Node} {r fuel : Nat}
    {res : Memory × Option Nat} (hinv : Inv base n m l)
    (hs : scan r m fuel m.next = .ok res) :
    ∃ x, firstFit r l m.next = some x ∧ carve x.addr r m = .ok res := by
  rcases hc : m.next with _ | c
  · rw [hc] at hs
    exact scan_from_null hinv.rep hs
  · rw [hc] at hs
    rcases hinv.cur c hc with hmem | ⟨hdead, -⟩
    · obtain ⟨l1, x, l2, rfl, rfl⟩ := mem_addrs_split hmem
      obtain ⟨hx1, -, -, -, -⟩ := nodup_mid hinv.rep.nodup
      unfold firstFit
      rw [scanOrder_split hx1, List.find?_append]
      rcases hf : (x :: l2).find? (fits r) with _ | y
      · obtain ⟨fuel1, h1⟩ := scan_suffix_none (x :: l2) l1 fuel hinv.rep (by simp) hf
          (by simpa using hs)
        obtain ⟨y, hy, hcarve⟩ := scan_from_null hinv.rep h1
        rw [List.find?_append, hf] at hy
        refine ⟨y, ?_, hcarve⟩
        simpa using hy
      · refine ⟨y, by simp, ?_⟩
        exact scan_suffix_found (x :: l2) l1 fuel hinv.rep hf (by simpa using hs)
    · rcases fuel with _ | k
      · simp [scan] at hs
      · simp [scan, hdead] at hs

/-! ## Allocations after `nextinit` -/

@[simp] theorem allocPtrs_nil : allocPtrs [] = [] := rfl

theorem allocPtrs_cons (x : Node) (l : List Node) :
    allocPtrs (x :: l) = if x.alloc = 0 then allocPtrs l else x.ptr :: allocPtrs l := by
  by_cases h : x.alloc = 0 <;> simp [allocPtrs, List.filter_cons, h]

@[simp] theorem allocPtrs_append (l1 l2 : List Node) :
    allocPtrs (l1 ++ l2) = allocPtrs l1 ++ allocPtrs l2 := by
  simp [allocPtrs]

theorem allocPtrs_allocated {A : List Node} (h : ∀ a ∈ A, a.alloc ≠ 0) :
    (allocPtrs A).length = A.length ∧ freeSum A = 0 := by
  induction A with
  | nil => simp
  | cons x xs ih =>
    have hx : x.alloc ≠ 0 := h x (by simp)
    obtain ⟨h1, h2⟩ := ih (fun a ha => h a (by simp [ha]))
    simp [allocPtrs_cons, hx, h1, h2]

theorem mem_allocPtrs {l : List Node} {p : Nat} (h : p ∈ allocPtrs l) :
    ∃ x ∈ l, x.alloc ≠ 0 ∧ x.ptr = p := by
  simp only [allocPtrs, List.mem_map, List.mem_filter] at h
  obtain ⟨x, ⟨hx, ha⟩, hp⟩ := h
  exact ⟨x, hx, by simpa using ha, hp⟩

theorem contig_lower {o : Nat} {l : List Node} (h : Contig o l) : ∀ y ∈ l, o ≤ y.ptr := by
  induction l generalizing o with
  | nil => simp
  | cons x xs ih =>
    intro y hy
    obtain ⟨hx, hxs⟩ := h
    simp at hy
    rcases hy with rfl | hy
    · omega
    · have := ih hxs y hy
      omega

theorem packed_length {m : Memory} {l : List Node} (h : Packed m l) :
    l.length ≤ (allocPtrs l).length + 1 := by
  obtain ⟨A, hA, h1 | ⟨R, h1, h2, -⟩⟩ := h
  · rw [h1.1, (allocPtrs_allocated hA).1]
    omega
  · rw [h1]
    simp [allocPtrs_cons, h2, (allocPtrs_allocated hA).1]

/-- One request of at least one byte on a packed list: it returns, and the
list stays packed. -/
theorem packed_malloc {base n fuel r : Nat} {m : Memory} {l : List Node}
    (hinv : Inv base n m l) (hpos : Pos l) (hpk : Packed m l) (hr : 1 ≤ r) (hf : 1 ≤ fuel) :
    ∃ m1 p l1, nextMalloc fuel r m = .ok (m1, p) ∧ Inv base n m1 l1 ∧ Pos l1 ∧ Packed m1 l1 ∧
      allocPtrs l1 = allocPtrs l ++ p.toList := by
  obtain ⟨A, hA, ⟨rfl, hb⟩ | ⟨R, rfl, hR, hnext⟩⟩ := hpk
  · refine ⟨m, none, l, fast_rejection_aux fuel r m (by omega), hinv, hpos, ⟨l, hA, Or.inl ⟨rfl, hb⟩⟩, ?_⟩
    simp
  · have hbf : m.bytesFree = R.size := by
      rw [hinv.free]
      simp [hR, (allocPtrs_allocated hA).2]
    by_cases hlt : R.size < r
    · refine ⟨m, none, _, fast_rejection_aux fuel r m (by omega), hinv, hpos,
        ⟨A, hA, Or.inr ⟨R, rfl, hR, hnext⟩⟩, ?_⟩
      simp
    · have hle : r ≤ R.size := by omega
      obtain ⟨m1, hm1, hrep1, hnext1, hbf1, -, -, -, -⟩ := carve_rep hinv.rep hle
      have hR0 := seg_mid hinv.rep.seg
      have hcall : nextMalloc fuel r m = .ok (m1, some R.ptr) := by
        obtain ⟨k, rfl⟩ : ∃ k, fuel = k + 1 := ⟨fuel - 1, by omega⟩
        have hnl : ¬ m.bytesFree < r := by omega
        simp only [nextMalloc, hnl, if_false, hnext, scan, hR0]
        rw [if_pos ⟨hR, hle⟩]
        exact hm1
      have hinv1 := (inv_carve hinv hR hle hm1).1
      refine ⟨m1, some R.ptr, _, hcall, hinv1, ?_, ?_, ?_⟩
      · intro y hy
        unfold carveList at hy
        by_cases hsp : r < R.size
        · simp only [hsp, if_true, List.mem_append, List.mem_cons] at hy
          rcases hy with hy | rfl | rfl | hy
          · exact hpos y (by simp [hy])
          · exact hr
          · show 0 < R.size - r
            omega
          · simp at hy
        · simp only [hsp, if_false, List.mem_append, List.mem_cons] at hy
          rcases hy with hy | rfl | hy
          · exact hpos y (by simp [hy])
          · exact hpos R (by simp)
          · simp at hy
      · unfold carveList
        by_cases hsp : r < R.size
        · simp only [hsp, if_true]
          refine ⟨A ++ [⟨m.brk, r, 1, R.ptr⟩], ?_, Or.inr ⟨⟨R.addr, R.size - r, R.alloc, R.ptr + r⟩,
            by simp, hR, ?_⟩⟩
          · intro a ha
            simp at ha
            rcases ha with ha | rfl
            · exact hA a ha
            · simp
          · rw [hnext1]
            simp [hsp]
        · simp only [hsp, if_false]
          refine ⟨A ++ [⟨R.addr, R.size, 1, R.ptr⟩], ?_, Or.inl ⟨rfl, ?_⟩⟩
          · intro a ha
            simp at ha
            rcases ha with ha | rfl
            · exact hA a ha
            · simp
          · rw [hbf1]
            omega
      · unfold carveList
        by_cases hsp : r < R.size
        · simp [hsp, allocPtrs_cons, hR]
        · simp [hsp, allocPtrs_cons, hR]

/-- A sequence of requests of at least one byte on a packed list. -/
theorem packed_mallocAll {base n fuel : Nat} (hf : 1 ≤ fuel) :
    ∀ (reqs : List Nat) (m : Memory) (l : List Node), Inv base n m l → Pos l → Packed m l →
      (∀ r ∈ reqs, 1 ≤ r) →
      ∃ m1 hs l1, mallocAll fuel reqs m = .ok (m1, hs) ∧ Inv base n m1 l1 ∧ Pos l1 ∧
        Packed m1 l1 ∧ allocPtrs l1 = allocPtrs l ++ hs ∧ hs.length ≤ reqs.length := by
  intro reqs
  induction reqs with
  | nil =>
    intro m l hinv hpos hpk _
    exact ⟨m, [], l, rfl, hinv, hpos, hpk, by simp, by simp⟩
  | cons r rs ih =>
    intro m l hinv hpos hpk hreq
    obtain ⟨m1, p, l1, hcall, hinv1, hpos1, hpk1, hptr1⟩ :=
      packed_malloc hinv hpos hpk (hreq r (by simp)) hf
    obtain ⟨m2, hs, l2, hall, hinv2, hpos2, hpk2, hptr2, hlen⟩ :=
      ih m1 l1 hinv1 hpos1 hpk1 (fun x hx => hreq x (by simp [hx]))
    refine ⟨m2, p.toList ++ hs, l2, ?_, hinv2, hpos2, hpk2, ?_, ?_⟩
    · simp [mallocAll, hcall, hall]
    · rw [hptr2, hptr1, List.append_assoc]
    · rcases p with _ | q <;> simp <;> omega

/-! ## Releasing every handle -/

theorem coalesce_allocPtrs (l1 l2 : List Node) (x : Node) :
    allocPtrs (coalesce l1 x l2) = allocPtrs l1 ++ allocPtrs l2 := by
  refine coalesce_cases (fun l1 l2 => allocPtrs (coalesce l1 x l2) = allocPtrs l1 ++ allocPtrs l2)
    ?_ ?_ ?_ ?_ ?_ ?_ ?_ ?_ ?_ l1 l2 <;> intros <;>
    simp [coalesce, absorbNext_nil, absorbNext_cons, absorbPrev_nil, absorbPrev_snoc,
      allocPtrs_cons, *]

theorem pos_nil : Pos [] := by
  intro x hx
  simp at hx

theorem pos_cons (x : Node) (l : List Node) : Pos (x :: l) ↔ 0 < x.size ∧ Pos l := by
  simp [Pos]

theorem pos_append (l1 l2 : List Node) : Pos (l1 ++ l2) ↔ Pos l1 ∧ Pos l2 := by
  simp [Pos, or_imp, forall_and]

theorem coalesce_pos (l1 l2 : List Node) (x : Node) :
    Pos (l1 ++ x :: l2) → Pos (coalesce l1 x l2) := by
  refine coalesce_cases (fun l1 l2 => Pos (l1 ++ x :: l2) → Pos (coalesce l1 x l2))
    ?_ ?_ ?_ ?_ ?_ ?_ ?_ ?_ ?_ l1 l2 <;> intros <;>
    simp only [coalesce, absorbNext_nil, absorbNext_cons, absorbPrev_nil, absorbPrev_snoc,
      pos_nil, pos_cons, pos_append, if_true, if_false, and_true, List.nil_append, *] <;>
    intro h <;> simp_all

theorem coalesce_length (l1 l2 : List Node) (x : Node) :
    (coalesce l1 x l2).length ≤ (l1 ++ x :: l2).length := by
  refine coalesce_cases (fun l1 l2 => (coalesce l1 x l2).length ≤ (l1 ++ x :: l2).length)
    ?_ ?_ ?_ ?_ ?_ ?_ ?_ ?_ ?_ l1 l2 <;> intros <;>
    simp [coalesce, absorbNext_nil, absorbNext_cons, absorbPrev_nil, absorbPrev_snoc, *]

/-- Releasing an outstanding handle: the call returns, and the handle leaves
the allocated blocks. -/
theorem handle_free {base n fuel p : Nat} {m : Memory} {l : List Node}
    (hinv : Inv base n m l) (hpos : Pos l) (hp : p ∈ allocPtrs l) (hlen : l.length < fuel) :
    ∃ m1 l1, nextFree fuel p m = .ok m1 ∧ Inv base n m1 l1 ∧ Pos l1 ∧
      (allocPtrs l).Perm (p :: allocPtrs l1) ∧ l1.length ≤ l.length := by
  obtain ⟨res, hres⟩ := @findByAddress_total m.heap p l none fuel hinv.rep.seg hlen
  obtain ⟨w, hw, hwa, hwp⟩ := mem_allocPtrs hp
  rcases findByAddress_ok l none fuel hinv.rep.seg hres with ⟨-, hno⟩ | ⟨l1, x, l2, rfl, rfl, hxp, hpre⟩
  · exact absurd hwp (hno w hw)
  · have hxa : x.alloc ≠ 0 := by
      intro hx0
      simp only [List.mem_append, List.mem_cons] at hw
      rcases hw with hw | rfl | hw
      · exact hpre w hw hwp
      · exact hwa hx0
      · have hc := hinv.contig
        rw [contig_append, contig_cons] at hc
        have hlow := contig_lower hc.2.2 w hw
        have hxs := hpos x (by simp)
        omega
    obtain ⟨m1, hm1, -, -, -, -⟩ := freeElement_rep hinv.rep
    have hx := seg_mid hinv.rep.seg
    refine ⟨m1, coalesce l1 x l2, ?_, inv_freeElement hinv hxa hm1, coalesce_pos _ _ _ hpos, ?_,
      coalesce_length _ _ _⟩
    · unfold nextFree
      rw [← hinv.rep.tail] at hres
      simp [hres, deref, load_of_eq hx, hxa, hm1]
    · rw [coalesce_allocPtrs]
      simp only [allocPtrs_append, allocPtrs_cons, hxa, if_false, hxp]
      exact List.perm_middle

/-- Releasing every outstanding handle, in any order, leaves no allocated
block. -/
theorem handles_freeAll {base n fuel : Nat} :
    ∀ (ps : List Nat) (m : Memory) (l : List Node), Inv base n m l → Pos l →
      ps.Perm (allocPtrs l) → l.length < fuel →
      ∃ m1 l1, freeAll fuel ps m = .ok m1 ∧ Inv base n m1 l1 ∧ allocPtrs l1 = [] := by
  intro ps
  induction ps with
  | nil =>
    intro m l hinv _ hperm _
    exact ⟨m, l, rfl, hinv, (List.nil_perm.1 hperm)⟩
  | cons p ps ih =>
    intro m l hinv hpos hperm hlen
    have hp : p ∈ allocPtrs l := hperm.subset (by simp)
    obtain ⟨m1, l1, hcall, hinv1, hpos1, hperm1, hlen1⟩ := handle_free hinv hpos hp hlen
    have hperm2 : ps.Perm (allocPtrs l1) := (hperm.trans hperm1).cons_inv
    obtain ⟨m2, l2, hall, hinv2, hnone⟩ := ih m1 l1 hinv1 hpos1 hperm2 (by omega)
    exact ⟨m2, l2, by simp [freeAll, hcall, hall], hinv2, hnone⟩

/-- A list without allocated block and without two free neighbours is a
single block. -/
theorem single_of_all_free {l : List Node} (hnone : allocPtrs l = []) (hadj : NoAdjFree l)
    (hne : l ≠ []) : ∃ x, l = [x] ∧ x.alloc = 0 := by
  rcases l with _ | ⟨x, l⟩
  · exact absurd rfl hne
  · have hx : x.alloc = 0 := by
      by_contra h
      simp [allocPtrs_cons, h] at hnone
    rcases l with _ | ⟨y, l⟩
    · exact ⟨x, rfl, hx⟩
    · have hy : y.alloc = 0 := by
        by_contra h
        simp [allocPtrs_cons, hx, h] at hnone
      exact absurd ⟨hx, hy⟩ hadj.1

/-! ## Lookup, frame and merge order -/

/-- The walk from `tail` has one result only, whatever the fuel. -/
theorem walk_seg_unique {h : Heap} :
    ∀ (l : List Node) (p : Option Nat) (k : Nat) (l1 : List Node), Seg h p l none →
      walk h k (firstAddr l none) = some l1 → l1 = l := by
  intro l
  induction l with
  | nil =>
    intro p k l1 _ hw
    rcases k with _ | k <;> simp [walk] at hw <;> exact hw
  | cons x xs ih =>
    intro p k l1 hs hw
    obtain ⟨hx, hxs⟩ := hs
    rcases k with _ | k
    · simp [walk] at hw
    · simp only [firstAddr_cons, walk, hx, Option.map_eq_some'] at hw
      obtain ⟨t, ht, rfl⟩ := hw
      rw [ih _ k t hxs ht]

theorem blocks_unique {m : Memory} {l l1 : List Node} {k : Nat} (hrep : Rep m l)
    (h : blocks k m = some l1) : l1 = l := by
  unfold blocks at h
  rw [hrep.tail] at h
  exact walk_seg_unique l none k l1 hrep.seg h

/-- The lookup of a start address that no earlier block of the list shares
returns the block. -/
theorem findByAddress_first {h : Heap} {b : Node} {l2 : List Node} :
    ∀ (l1 : List Node) (p : Option Nat) (fuel : Nat), Seg h p (l1 ++ b :: l2) none →
      (∀ y ∈ l1, y.ptr ≠ b.ptr) → l1.length < fuel →
      findByAddress b.ptr h fuel (firstAddr (l1 ++ b :: l2) none) = .ok (some b.addr) := by
  intro l1
  induction l1 with
  | nil =>
    intro p fuel hs _ hlen
    obtain ⟨k, rfl⟩ : ∃ k, fuel = k + 1 := ⟨fuel - 1, by omega⟩
    obtain ⟨hb, -⟩ := hs
    simp [findByAddress, hb]
  | cons x xs ih =>
    intro p fuel hs hne hlen
    obtain ⟨k, rfl⟩ : ∃ k, fuel = k + 1 := ⟨fuel - 1, by omega⟩
    obtain ⟨hx, hxs⟩ := hs
    have hxp : x.ptr ≠ b.ptr := hne x (by simp)
    simp only [List.cons_append, firstAddr_cons, findByAddress, hx, if_neg hxp]
    exact ih _ k hxs (fun y hy => hne y (by simp [hy])) (by simpa using hlen)

/-- On the start address of a block that no earlier block shares, `nextFree`
is `freeElement` on that block when it is allocated and does nothing when it
is free. -/
theorem nextFree_first {m : Memory} {l1 l2 : List Node} {b : Node} {fuel : Nat}
    (hrep : Rep m (l1 ++ b :: l2)) (hne : ∀ y ∈ l1, y.ptr ≠ b.ptr) (hlen : l1.length < fuel) :
    nextFree fuel b.ptr m = if b.alloc = 0 then .ok m else freeElement b.addr m := by
  have hf := findByAddress_first l1 none fuel hrep.seg hne hlen
  have hb := seg_mid hrep.seg
  unfold nextFree
  rw [hrep.tail, hf]
  simp [deref, load_of_eq hb]

theorem null_zeroFront : ReachableNull 1000 100 zeroFront :=
  null_afterMalloc _ _ (null_fresh 100 (by decide))

theorem null_zeroThenFull : ReachableNull 1000 100 zeroThenFull :=
  null_afterMalloc _ _ null_zeroFront

theorem null_cursorDangling : ReachableNull 1000 100 cursorDangling :=
  null_afterFree _ _ (null_afterMalloc _ _ null_tailReleased)

theorem reachable_cursorDangling : Reachable 1000 100 cursorDangling :=
  reachable_of_null null_cursorDangling

theorem null_threeAllocated : ReachableNull 1000 100 threeAllocated :=
  null_afterMalloc _ _ (null_afterMalloc _ _ (null_afterMalloc _ _
    (null_fresh 100 (by decide))))

theorem null_middleReleased : ReachableNull 1000 100 middleReleased :=
  null_afterFree _ _ null_threeAllocated

theorem null_releasedWhole : ReachableNull 1000 50 releasedWhole :=
  null_afterFree _ _ (null_afterMalloc _ _ (null_fresh 50 (by decide)))

theorem coalesce_keeps (l1 l2 : List Node) (b : Node) :
    ∀ y ∈ l1 ++ l2, y.alloc ≠ 0 → y ∈ coalesce l1 b l2 := by
  refine coalesce_cases (fun l1 l2 => ∀ y ∈ l1 ++ l2, y.alloc ≠ 0 → y ∈ coalesce l1 b l2)
    ?_ ?_ ?_ ?_ ?_ ?_ ?_ ?_ ?_ l1 l2 <;> intros <;>
    simp_all [coalesce, absorbNext_nil, absorbNext_cons, absorbPrev_nil, absorbPrev_snoc] <;>
    aesop

theorem carveList_keeps (fresh r : Nat) (l1 l2 : List Node) (x : Node) (hx : x.alloc = 0) :
    ∀ y ∈ l1 ++ x :: l2, y.alloc ≠ 0 → y ∈ carveList fresh l1 x l2 r := by
  intro y hy ha
  have hne : y ≠ x := fun e => ha (e ▸ hx)
  simp only [List.mem_append, List.mem_cons] at hy
  unfold carveList
  split <;> simp <;> tauto

/-- Releasing an allocated block through its start address, when no other
block of the list starts there. -/
theorem release_unique {base n fuel : Nat} {m : Memory} {l1 l2 : List Node} {b : Node}
    (hinv : Inv base n m (l1 ++ b :: l2)) (hb : b.alloc ≠ 0)
    (huniq : ∀ y ∈ l1 ++ l2, y.ptr ≠ b.ptr) (hfuel : (l1 ++ b :: l2).length < fuel) :
    ∃ m1, nextFree fuel b.ptr m = .ok m1 ∧ Inv base n m1 (coalesce l1 b l2) ∧
      m1.bytesFree = m.bytesFree + b.size := by
  have hlen : l1.length < fuel := by
    simp at hfuel
    omega
  obtain ⟨m1, hm1, -, -, hbf, -⟩ := freeElement_rep hinv.rep
  refine ⟨m1, ?_, inv_freeElement hinv hb hm1, hbf⟩
  rw [nextFree_first hinv.rep (fun y hy => huniq y (by simp [hy])) hlen, if_neg hb]
  exact hm1

theorem seg_heap_eq {h h1 : Heap} :
    ∀ (l : List Node) (p q : Option Nat), Seg h p l q → Seg h1 p l q →
      ∀ a ∈ addrs l, h a = h1 a := by
  intro l
  induction l with
  | nil =>
    intro p q _ _ a ha
    simp at ha
  | cons x xs ih =>
    intro p q hs hs1 a ha
    simp at ha
    rcases ha with rfl | ha
    · rw [hs.1, hs1.1]
    · exact ih _ q hs.2 hs1.2 a ha

/-- Two states that come from the same state by release steps and stand for
the same list are the same state. -/
theorem kept_unique {m ma mb : Memory} {l lf : List Node}
    (hra : Rep ma lf) (hrb : Rep mb lf) (hka : Kept m ma l lf) (hkb : Kept m mb l lf)
    (hnext : ma.next = mb.next) (hbf : ma.bytesFree = mb.bytesFree) : ma = mb := by
  have hheap : ma.heap = mb.heap := by
    funext a
    by_cases hf : a ∈ addrs lf
    · exact seg_heap_eq lf none none hra.seg hrb.seg a hf
    · by_cases ho : a ∈ addrs l
      · rw [hka.dead a ho hf, hkb.dead a ho hf]
      · rw [hka.frame a ho, hkb.frame a ho]
  have hms := hka.memStart.trans hkb.memStart.symm
  have hps := hka.poolSize.trans hkb.poolSize.symm
  have hbrk := hka.brk.trans hkb.brk.symm
  have hhd := hra.head.trans hrb.head.symm
  have htl := hra.tail.trans hrb.tail.symm
  rcases ma with ⟨a1, a2, a3, a4, a5, a6, a7, a8⟩
  rcases mb with ⟨b1, b2, b3, b4, b5, b6, b7, b8⟩
  simp only at hheap hms hps hbrk hhd htl hnext hbf
  subst hheap hms hps hbrk hhd htl hnext hbf
  rfl

theorem mergeForward_kept {m : Memory} {l1 l2 : List Node} {x y : Node}
    (hrep : Rep m (l1 ++ x :: y :: l2)) :
    ∃ m1, mergeForward x.addr m = .ok m1 ∧
      Rep m1 (l1 ++ ⟨x.addr, x.size + y.size, x.alloc, x.ptr⟩ :: l2) ∧
      m1.next = (if m.next = some y.addr then some x.addr else m.next) ∧
      m1.bytesFree = m.bytesFree ∧
      Kept m m1 (l1 ++ x :: y :: l2) (l1 ++ ⟨x.addr, x.size + y.size, x.alloc, x.ptr⟩ :: l2) := by
  obtain ⟨m1, hm1, hrep1, hnext, hbf, hms, hps, hbrk, hfr, hdead⟩ := mergeForward_rep hrep
  refine ⟨m1, hm1, hrep1, hnext, hbf, ⟨hms, hps, hbrk, hfr, ?_, ?_⟩⟩
  · intro a ha hna
    simp at ha hna
    have : a = y.addr := by tauto
    rw [this]
    exact hdead
  · intro a ha
    simp at ha ⊢
    tauto

theorem mergeBackwards_kept {m : Memory} {l1 l2 : List Node} {x y : Node}
    (hrep : Rep m (l1 ++ y :: x :: l2)) :
    ∃ m1, mergeBackwards x.addr m = .ok m1 ∧
      Rep m1 (l1 ++ ⟨x.addr, x.size + y.size, x.alloc, y.ptr⟩ :: l2) ∧
      m1.next = m.next ∧ m1.bytesFree = m.bytesFree ∧
      Kept m m1 (l1 ++ y :: x :: l2) (l1 ++ ⟨x.addr, x.size + y.size, x.alloc, y.ptr⟩ :: l2) := by
  obtain ⟨m1, hm1, hrep1, hnext, hbf, hms, hps, hbrk, hfr, hdead⟩ := mergeBackwards_rep hrep
  refine ⟨m1, hm1, hrep1, hnext, hbf, ⟨hms, hps, hbrk, hfr, ?_, ?_⟩⟩
  · intro a ha hna
    simp at ha hna
    have : a = y.addr := by tauto
    rw [this]
    exact hdead
  · intro a ha
    simp at ha ⊢
    tauto

theorem rep_of_null {base n k : Nat} {m : Memory} {l : List Node}
    (h : ReachableNull base n m) (hl : blocks k m = some l) : Rep m l := by
  obtain ⟨l0, hinv⟩ := null_inv h
  rw [blocks_unique hinv.rep hl]
  exact hinv.rep

/-! ## Runs from a node cell with NULL links -/

/-- From a node cell with NULL links, the walk from `tail` ends in every
reachable state, its first block starts at the pool base, every other block
starts where its predecessor ends, and the block sizes add up to `n`. -/
theorem null_partition (base n : Nat) (m : Memory) (h : ReachableNull base n m) :
    ∃ l, blocks l.length m = some l ∧ Contig base l ∧ total l = n := by
  obtain ⟨l, hinv⟩ := null_inv h
  exact ⟨l, blocks_of_rep hinv.rep, hinv.contig, hinv.total⟩

/-- From a node cell with NULL links, no block of the list and its successor
are both free. -/
theorem null_coalescing (base n : Nat) (m : Memory) (h : ReachableNull base n m) :
    ∃ l, blocks l.length m = some l ∧ NoAdjFree l := by
  obtain ⟨l, hinv⟩ := null_inv h
  exact ⟨l, blocks_of_rep hinv.rep, hinv.noAdj⟩

/-- From a node cell with NULL links, `bytesFree` is the sum of the sizes of the
free blocks of the list. -/
theorem null_accounting (base n : Nat) (m : Memory) (h : ReachableNull base n m) :
    ∃ l, blocks l.length m = some l ∧ m.bytesFree = freeSum l := by
  obtain ⟨l, hinv⟩ := null_inv h
  exact ⟨l, blocks_of_rep hinv.rep, hinv.free⟩

/-- From a node cell with NULL links, any sequence of requests of at least one
byte returns, and releasing the handles that were returned, each once and in
any order, returns and leaves exactly one block: free, of size `n`, at the
pool base, with `bytesFree = n`. -/
theorem null_round_trip (junk : Element) (base n : Nat) (m0 : Memory) (reqs : List Nat)
    (fuel : Nat) (hn : 1 ≤ n) (hp : junk.prev = none) (hq : junk.next = none)
    (hreq : ∀ r ∈ reqs, 1 ≤ r) (hfuel : reqs.length + 2 ≤ fuel) :
    ∃ m1 hs, mallocAll fuel reqs (nextinit junk base n m0) = .ok (m1, hs) ∧
      ∀ ps, ps.Perm hs → ∃ m2 a, freeAll fuel ps m1 = .ok m2 ∧
        blocks 1 m2 = some [⟨a, n, 0, base⟩] ∧ m2.bytesFree = n := by
  have hinv0 := inv_init junk base n m0 hn hp hq
  have hnext0 := (nextinit_rep junk base n m0 hn hp hq).2.1
  have hpos0 : Pos [(⟨m0.brk, n, 0, base⟩ : Node)] := by
    intro x hx
    simp at hx
    rw [hx]
    exact hn
  have hpk0 : Packed (nextinit junk base n m0) [(⟨m0.brk, n, 0, base⟩ : Node)] :=
    ⟨[], by simp, Or.inr ⟨_, rfl, rfl, hnext0⟩⟩
  obtain ⟨m1, hs, l1, hall, hinv1, hpos1, hpk1, hptr1, hlen1⟩ :=
    @packed_mallocAll base n fuel (by omega) reqs _ _ hinv0 hpos0 hpk0 hreq
  refine ⟨m1, hs, hall, ?_⟩
  intro ps hperm
  have hl1 := packed_length hpk1
  have hptr : allocPtrs l1 = hs := by simpa using hptr1
  have hlt : l1.length < fuel := by
    rw [hptr] at hl1
    omega
  obtain ⟨m2, l2, hfree, hinv2, hnone⟩ :=
    handles_freeAll ps m1 l1 hinv1 hpos1 (by rw [hptr]; exact hperm) hlt
  have hne : l2 ≠ [] := by
    intro h
    have ht := hinv2.total
    rw [h] at ht
    simp at ht
    omega
  obtain ⟨x, rfl, hx⟩ := single_of_all_free hnone hinv2.noAdj hne
  have hc := hinv2.contig
  have ht := hinv2.total
  have hb := hinv2.free
  have hblk := blocks_of_rep hinv2.rep
  simp at hc ht hb
  refine ⟨m2, x.addr, hfree, ?_, ?_⟩
  · rw [← ht, ← hc, ← hx]
    exact hblk
  · rw [hb, hx]
    simpa using ht

/-- From a node cell with NULL links, a `nextMalloc(r)` that returns a block
has carved from the first block, in circular list order starting at the
cursor, that is free and holds at least `r` bytes. -/
theorem null_selection (base n fuel r : Nat) (m m1 : Memory) (p : Nat)
    (h : ReachableNull base n m) (hm : nextMalloc fuel r m = .ok (m1, some p)) :
    ∃ l x, blocks l.length m = some l ∧ firstFit r l m.next = some x ∧
      carve x.addr r m = .ok (m1, some p) := by
  obtain ⟨l, hinv⟩ := null_inv h
  unfold nextMalloc at hm
  by_cases hlt : m.bytesFree < r
  · rw [if_pos hlt] at hm
    cases hm
  · rw [if_neg hlt] at hm
    obtain ⟨x, hx, hc⟩ := scan_first_fit hinv hm
    exact ⟨l, x, blocks_of_rep hinv.rep, hx, hc⟩

/-- After `nextinit(n)` on a node cell whose `next` link is NULL,
`nextMalloc(n)` returns the pool base and leaves exactly one block, allocated,
of size `n`, with `bytesFree = 0`, and every following request of at least one
byte returns NULL and changes nothing. -/
theorem null_whole_pool (junk : Element) (base n : Nat) (m0 : Memory) (fuel : Nat)
    (hn : 1 ≤ n) (hq : junk.next = none) :
    ∃ m1, nextMalloc (fuel + 1) n (nextinit junk base n m0) = .ok (m1, some base) ∧
      blocks 1 m1 = some [⟨m0.brk, n, 1, base⟩] ∧ m1.bytesFree = 0 ∧
      ∀ fuel1 k, 1 ≤ k → nextMalloc fuel1 k m1 = .ok (m1, none) := by
  obtain ⟨h0, he⟩ := nextinit_eq junk base n m0 hn
  rw [he]
  simp [nextMalloc, scan, carve, allocateBlock, load, deref, store_apply, hq, blocks, walk]
  intro fuel1 k hk
  omega

/-- The guard of `nextFree`: when the lookup resolves the address to a free
block, here the first block from `tail` that starts there, the call returns
and leaves the whole state as it was. -/
theorem nextFree_free_block {m : Memory} {l1 l2 : List Node} {b : Node} {fuel : Nat}
    (hrep : Rep m (l1 ++ b :: l2)) (hb : b.alloc = 0) (hfirst : ∀ y ∈ l1, y.ptr ≠ b.ptr)
    (hfuel : l1.length < fuel) : nextFree fuel b.ptr m = .ok m := by
  rw [nextFree_first hrep hfirst hfuel, if_pos hb]

/-- After `nextinit(50); a = nextMalloc(50); nextFree(a)`, a second
`nextFree(a)` leaves the one free block of 50 bytes and `bytesFree = 50`. -/
theorem releasedWhole_again :
    blocks 1 releasedWhole = some [⟨0, 50, 0, 1000⟩] ∧ releasedWhole.bytesFree = 50 ∧
      nextFree 2 1000 releasedWhole = .ok releasedWhole :=
  ⟨by decide, by decide, rfl⟩

/-- After `nextinit(100); nextMalloc(0)` two blocks start at the pool base, an
allocated one of size 0 and the free one of 100 bytes. `nextFree` on that
address leaves the state as it is when the lookup resolves to the free block
(`alloc == 0`), and releases and merges the block of size 0 when the lookup
resolves to that one, as the scan from `tail` does. -/
theorem zeroFront_release :
    blocks 2 zeroFront = some [⟨1, 0, 1, 1000⟩, ⟨0, 100, 0, 1000⟩] ∧
      (∃ m1, freeElement 1 zeroFront = .ok m1 ∧ blocks 1 m1 = some [⟨1, 100, 0, 1000⟩]) ∧
      nextFree 3 1000 zeroFront = freeElement 1 zeroFront := by
  refine ⟨by decide, ⟨afterFree 3 1000 zeroFront, rfl, by decide⟩, rfl⟩

/-! ## Re-initialisation on a recycled node cell -/

theorem reachable_reinit : Reachable 2000 100 reinit :=
  Reachable.init staleNext middleReleased (by decide)

/-- On `reinit` the walk from `tail` steps from the block into a released
node, whatever the number of steps allowed. -/
theorem reinit_no_walk (fuel : Nat) : blocks fuel reinit = none := by
  have h3 : reinit.heap 3 = some ⟨100, 0, 2000, none, some 2⟩ := by decide
  have h2 : reinit.heap 2 = none := by decide
  have ht : reinit.tail = some 3 := by decide
  revert h3 h2 ht
  generalize reinit = m
  intro h3 h2 ht
  rcases fuel with _ | _ | k <;> simp [blocks, walk, h3, h2, ht]

/-! ## The claims -/

/-- Claim C1 (partition invariant) does not hold on the code after a
re-initialisation, by the defect of claim C14: `nextinit` never assigns the
two links of the node it creates. On `reinit` the block keeps the `next` link
of the recycled cell, the address of a released node, and the walk from `tail`
never reaches NULL: there is no block list. On `reinitPrev` the block keeps a
`prev` link to the cell that `malloc` hands out next; `nextMalloc(30)` then
links the new node to itself and leaves `tail` on the old block, and the walk
from `tail` to `head` is the one block `[70 free]` at offset 30: the first
block does not start at the pool base and the sizes do not add up to 100. -/
theorem partition_lost_after_reinit :
    (Reachable 2000 100 reinit ∧ reinit.tail = some 3 ∧
      reinit.heap 3 = some ⟨100, 0, 2000, none, some 2⟩ ∧ reinit.heap 2 = none ∧
      ¬ ∃ fuel l, blocks fuel reinit = some l ∧ Contig 2000 l ∧ total l = 100) ∧
    (Reachable 2000 100 (afterMalloc 1 30 reinitPrev) ∧
      nextMalloc 1 30 reinitPrev = .ok (afterMalloc 1 30 reinitPrev, some 2000) ∧
      (afterMalloc 1 30 reinitPrev).tail = some 3 ∧ (afterMalloc 1 30 reinitPrev).head = some 3 ∧
      (afterMalloc 1 30 reinitPrev).heap 3 = some ⟨70, 0, 2030, some 4, none⟩ ∧
      (afterMalloc 1 30 reinitPrev).heap 4 = some ⟨30, 1, 2000, some 4, some 4⟩ ∧
      blocks 1 (afterMalloc 1 30 reinitPrev) = some [⟨3, 70, 0, 2030⟩] ∧
      ¬ ∃ fuel l, blocks fuel (afterMalloc 1 30 reinitPrev) = some l ∧ Contig 2000 l ∧
        total l = 100) := by
  refine ⟨⟨reachable_reinit, by decide, by decide, by decide, ?_⟩,
    reachable_afterMalloc _ _ (Reachable.init stalePrev threeAllocated (by decide)), rfl,
    by decide, by decide, by decide, by decide, by decide, ?_⟩
  · rintro ⟨fuel, l, hl, -⟩
    rw [reinit_no_walk] at hl
    cases hl
  · rintro ⟨fuel, l, hl, hc, ht⟩
    have h3 : (afterMalloc 1 30 reinitPrev).heap 3 = some ⟨70, 0, 2030, some 4, none⟩ := by
      decide
    have htl : (afterMalloc 1 30 reinitPrev).tail = some 3 := by decide
    revert h3 htl hl
    generalize afterMalloc 1 30 reinitPrev = m
    intro hl h3 htl
    rcases fuel with _ | k
    · simp [blocks, walk, htl] at hl
    · simp [blocks, walk, htl, h3] at hl
      subst hl
      simp [total] at ht

/-- Claim C4 (round-trip law) does not hold on the code after a
re-initialisation, by the defect of claim C14. Right after `nextinit(100)` on
the recycled cell, `nextMalloc(100)` returns the pool base, and releasing that
one handle does not bring the initial list back: `freeElement` finds the
`next` link of the block not NULL and reads the released node it designates.
The call does not return, whatever the iteration budget. -/
theorem round_trip_lost_after_reinit :
    Reachable 2000 100 reinit ∧
      reinit.heap 3 = some ⟨100, 0, 2000, none, some 2⟩ ∧ reinit.heap 2 = none ∧
      mallocAll 1 [100] reinit = .ok (afterMalloc 1 100 reinit, [2000]) ∧
      ∀ fuel, freeAll (fuel + 1) [2000] (afterMalloc 1 100 reinit) = .fault := by
  refine ⟨reachable_reinit, by decide, by decide, rfl, ?_⟩
  intro fuel
  have h3 : (afterMalloc 1 100 reinit).heap 3 = some ⟨100, 1, 2000, none, some 2⟩ := by decide
  have h2 : (afterMalloc 1 100 reinit).heap 2 = none := by decide
  have ht : (afterMalloc 1 100 reinit).tail = some 3 := by decide
  revert h3 h2 ht
  generalize afterMalloc 1 100 reinit = m
  intro h3 h2 ht
  simp [freeAll, nextFree, findByAddress, freeElement, forwardBlock, load, deref, store_apply,
    h3, h2, ht]

/-- Claim C5 (next-fit selection) does not hold on the code after a
re-initialisation, by the defect of claim C14. In `tailSkipped` the blocks
from `tail` to `head` are `[20 free][40][30 free][3][7 free]`, the cursor is
the head block, and the `next` link of the head block is not NULL but the
stale link of the recycled cell, which designates the second block. For a
request of 15 bytes the first fitting block in circular order from the cursor
is the tail block (the head block is too small, and past `head` comes `tail`);
the search follows the stale link instead, misses the tail block and carves
from the third block: the call returns offset 60, not offset 0. -/
theorem selection_skips_tail :
    Reachable 2000 100 tailSkipped ∧
      tailSkipped.tail = some 6 ∧ tailSkipped.head = some 3 ∧ tailSkipped.next = some 3 ∧
      tailSkipped.heap 6 = some ⟨20, 0, 2000, none, some 4⟩ ∧
      tailSkipped.heap 4 = some ⟨40, 1, 2020, some 6, some 5⟩ ∧
      tailSkipped.heap 5 = some ⟨30, 0, 2060, some 4, some 7⟩ ∧
      tailSkipped.heap 7 = some ⟨3, 1, 2090, some 5, some 3⟩ ∧
      tailSkipped.heap 3 = some ⟨7, 0, 2093, some 7, some 4⟩ ∧
      firstFit 15 [⟨6, 20, 0, 2000⟩, ⟨4, 40, 1, 2020⟩, ⟨5, 30, 0, 2060⟩, ⟨7, 3, 1, 2090⟩,
        ⟨3, 7, 0, 2093⟩] tailSkipped.next = some ⟨6, 20, 0, 2000⟩ ∧
      ∀ fuel, nextMalloc (fuel + 3) 15 tailSkipped = carve 5 15 tailSkipped ∧
        carve 5 15 tailSkipped = .ok (afterMalloc 3 15 tailSkipped, some 2060) := by
  refine ⟨?_, by decide, by decide, by decide, by decide, by decide, by decide, by decide,
    by decide, by decide, ?_⟩
  · exact reachable_afterFree _ _ (reachable_afterMalloc _ _ (reachable_afterFree _ _
      (reachable_afterMalloc _ _ (reachable_afterMalloc _ _ (reachable_afterFree _ _
        (reachable_afterMalloc _ _ (reachable_afterMalloc _ _
          (Reachable.init reissuedNext threeAllocated (by decide)))))))))
  · intro fuel
    refine ⟨?_, rfl⟩
    have h3 : tailSkipped.heap 3 = some ⟨7, 0, 2093, some 7, some 4⟩ := by decide
    have h4 : tailSkipped.heap 4 = some ⟨40, 1, 2020, some 6, some 5⟩ := by decide
    have h5 : tailSkipped.heap 5 = some ⟨30, 0, 2060, some 4, some 7⟩ := by decide
    have hn : tailSkipped.next = some 3 := by decide
    have hb : tailSkipped.bytesFree = 57 := by decide
    revert h3 h4 h5 hn hb
    generalize tailSkipped = m
    intro h3 h4 h5 hn hb
    simp [nextMalloc, scan, h3, h4, h5, hn, hb]

/-- Claim C6 (fragmentation failure), at the state of the claim: 70 bytes are
free in blocks of 30 and 40 bytes, and `nextMalloc(50)` leaves the search loop
without a block and reads the never assigned `allocated`: the call does not
return NULL, whatever the iteration budget. -/
theorem fragmentation_reads_unassigned :
    blocks 3 fragmented = some [⟨1, 30, 0, 1000⟩, ⟨2, 30, 1, 1030⟩, ⟨0, 40, 0, 1060⟩] ∧
      fragmented.bytesFree = 70 ∧
      ∀ fuel, nextMalloc (fuel + 3) 50 fragmented = .fault := by
  refine ⟨by decide, by decide, ?_⟩
  intro fuel
  have h1 : fragmented.heap 1 = some ⟨30, 0, 1000, none, some 2⟩ := by decide
  have h2 : fragmented.heap 2 = some ⟨30, 1, 1030, some 1, some 0⟩ := by decide
  have h0 : fragmented.heap 0 = some ⟨40, 0, 1060, some 2, none⟩ := by decide
  have hn : fragmented.next = none := by decide
  have ht : fragmented.tail = some 1 := by decide
  have hb : fragmented.bytesFree = 70 := by decide
  simp [nextMalloc, scan, h0, h1, h2, hn, ht, hb]

/-- Claim C7 (bounded scan), on a reachable state whose cursor is the tail
block: 20 bytes are free in two blocks of 10 bytes, and the search loop of
`nextMalloc(15)` is still running after any number of iterations. -/
theorem scan_not_bounded :
    Reachable 1000 100 cursorOnTail ∧
      blocks 3 cursorOnTail = some [⟨3, 10, 0, 1000⟩, ⟨2, 80, 1, 1010⟩, ⟨0, 10, 0, 1090⟩] ∧
      cursorOnTail.next = cursorOnTail.tail ∧ cursorOnTail.bytesFree = 20 ∧
      ∀ fuel, nextMalloc fuel 15 cursorOnTail = .diverge := by
  refine ⟨reachable_cursorOnTail, by decide, by decide, by decide, ?_⟩
  have h3 : cursorOnTail.heap 3 = some ⟨10, 0, 1000, none, some 2⟩ := by decide
  have h2 : cursorOnTail.heap 2 = some ⟨80, 1, 1010, some 3, some 0⟩ := by decide
  have h0 : cursorOnTail.heap 0 = some ⟨10, 0, 1090, some 2, none⟩ := by decide
  have hn : cursorOnTail.next = some 3 := by decide
  have ht : cursorOnTail.tail = some 3 := by decide
  have hb : cursorOnTail.bytesFree = 20 := by decide
  have key : ∀ fuel, scan 15 cursorOnTail fuel (some 3) = .diverge ∧
      scan 15 cursorOnTail fuel (some 2) = .diverge ∧
      scan 15 cursorOnTail fuel (some 0) = .diverge ∧
      scan 15 cursorOnTail fuel none = .diverge := by
    intro fuel
    induction fuel with
    | zero => simp [scan]
    | succ k ih =>
      obtain ⟨i3, i2, i0, iz⟩ := ih
      simp [scan, h0, h2, h3, hn, ht, i0, i2, i3, iz]
  intro fuel
  simp [nextMalloc, hb, hn, (key fuel).1]

/-- Claim C8 (fast rejection). In every state, a request larger than
`bytesFree` returns NULL before the search loop is entered (no iteration is
spent) and leaves the state as it was. -/
theorem fast_rejection (fuel r : Nat) (m : Memory) (h : m.bytesFree < r) :
    nextMalloc fuel r m = .ok (m, none) :=
  fast_rejection_aux fuel r m h

/-- Claim C8 on `nextinit(10)` followed by `nextMalloc(11)`. -/
theorem fast_rejection_witness : nextMalloc 0 11 (fresh 10) = .ok (fresh 10, none) :=
  fast_rejection 0 11 (fresh 10) (by decide)

/-- Claim C9 (whole-pool boundary) does not hold on the code after a
re-initialisation, by the defect of claim C14. On `reinit`, `nextMalloc(100)`
returns the pool base and `bytesFree` is 0, but what it leaves is not a list
of one block: the block keeps the stale `next` link to a released node, the
walk from `tail` never reaches NULL, and the cursor is that released node. On
`reinitPrev`, where the stale `prev` link designates the cell handed out next,
`nextMalloc(30)` returns with `bytesFree = 70` and the following
`nextMalloc(70)` does not succeed: the new node is linked to itself, the
search ends on it and reads the never assigned `allocated`. -/
theorem whole_pool_lost_after_reinit :
    (Reachable 2000 100 reinit ∧
      nextMalloc 1 100 reinit = .ok (afterMalloc 1 100 reinit, some 2000) ∧
      (afterMalloc 1 100 reinit).bytesFree = 0 ∧
      (afterMalloc 1 100 reinit).tail = some 3 ∧
      (afterMalloc 1 100 reinit).heap 3 = some ⟨100, 1, 2000, none, some 2⟩ ∧
      (afterMalloc 1 100 reinit).heap 2 = none ∧
      (afterMalloc 1 100 reinit).next = some 2 ∧
      ∀ fuel, blocks fuel (afterMalloc 1 100 reinit) = none) ∧
    (Reachable 2000 100 reinitPrev ∧
      nextMalloc 1 30 reinitPrev = .ok (afterMalloc 1 30 reinitPrev, some 2000) ∧
      (afterMalloc 1 30 reinitPrev).bytesFree = 70 ∧
      (afterMalloc 1 30 reinitPrev).next = some 4 ∧
      (afterMalloc 1 30 reinitPrev).heap 4 = some ⟨30, 1, 2000, some 4, some 4⟩ ∧
      ∀ fuel, nextMalloc (fuel + 1) 70 (afterMalloc 1 30 reinitPrev) = .fault) := by
  refine ⟨⟨reachable_reinit, rfl, by decide, by decide,
    by decide, by decide, by decide, ?_⟩,
    Reachable.init stalePrev threeAllocated (by decide), rfl, by decide, by decide, by decide,
    ?_⟩
  · intro fuel
    have h3 : (afterMalloc 1 100 reinit).heap 3 = some ⟨100, 1, 2000, none, some 2⟩ := by decide
    have h2 : (afterMalloc 1 100 reinit).heap 2 = none := by decide
    have ht : (afterMalloc 1 100 reinit).tail = some 3 := by decide
    revert h3 h2 ht
    generalize afterMalloc 1 100 reinit = m
    intro h3 h2 ht
    rcases fuel with _ | _ | k <;> simp [blocks, walk, h3, h2, ht]
  · intro fuel
    have h4 : (afterMalloc 1 30 reinitPrev).heap 4 = some ⟨30, 1, 2000, some 4, some 4⟩ := by
      decide
    have hn : (afterMalloc 1 30 reinitPrev).next = some 4 := by decide
    have hb : (afterMalloc 1 30 reinitPrev).bytesFree = 70 := by decide
    revert h4 hn hb
    generalize afterMalloc 1 30 reinitPrev = m
    intro h4 hn hb
    simp [nextMalloc, scan, h4, hn, hb]

/-- Claim C10 fails on the code: after `nextinit(100)`, `nextMalloc(0)` is not
rejected; it returns the pool base and inserts an allocated block of size 0
in front of the free block. -/
theorem zero_request_not_rejected :
    nextMalloc 1 0 (fresh 100) ≠ .ok (fresh 100, none) ∧
      blocks 1 (fresh 100) = some [⟨0, 100, 0, 1000⟩] ∧
      ∃ m1, nextMalloc 1 0 (fresh 100) = .ok (m1, some 1000) ∧
        blocks 2 m1 = some [⟨1, 0, 1, 1000⟩, ⟨0, 100, 0, 1000⟩] := by
  have h : nextMalloc 1 0 (fresh 100) = .ok (afterMalloc 1 0 (fresh 100), some 1000) := rfl
  refine ⟨?_, by decide, _, h, by decide⟩
  rw [h]
  intro he
  cases he

/-- Claim C10 as amended. In every state reached from a node cell with NULL
links, a call `nextMalloc(0)` that returns is served like any other request.
The search selects the first free block in circular order from the cursor
(every free block fits), the call returns the start of that block, never
NULL, and leaves `bytesFree` as it was. When the selected block has at least
one byte, a new node of size 0, marked allocated, at the start of that block,
is inserted right before it, and the selected block and every other block
stay as they were; when the selected block has size 0 it is marked allocated
in place and no node is added. -/
theorem zero_request_served (base n fuel : Nat) (m m1 : Memory) (p : Option Nat)
    (h : ReachableNull base n m) (hm : nextMalloc fuel 0 m = .ok (m1, p)) :
    ∃ l1 x l2, blocks (l1 ++ x :: l2).length m = some (l1 ++ x :: l2) ∧
      firstFit 0 (l1 ++ x :: l2) m.next = some x ∧ x.alloc = 0 ∧
      p = some x.ptr ∧ m1.bytesFree = m.bytesFree ∧
      ((0 < x.size ∧ m.brk ∉ addrs (l1 ++ x :: l2) ∧
          blocks ((l1 ++ x :: l2).length + 1) m1 =
            some (l1 ++ ⟨m.brk, 0, 1, x.ptr⟩ :: x :: l2)) ∨
        (x.size = 0 ∧
          blocks (l1 ++ x :: l2).length m1 = some (l1 ++ ⟨x.addr, 0, 1, x.ptr⟩ :: l2))) := by
  obtain ⟨l, hinv⟩ := null_inv h
  unfold nextMalloc at hm
  rw [if_neg (Nat.not_lt_zero _)] at hm
  obtain ⟨x, hff, hc⟩ := scan_first_fit hinv hm
  have hmem : x ∈ l := by
    unfold firstFit at hff
    have h1 := List.mem_of_find?_eq_some hff
    unfold scanOrder at h1
    rcases hcur : m.next with _ | c
    · simpa [hcur] using h1
    · simp only [hcur, List.mem_append] at h1
      rcases h1 with h1 | h1
      · exact (List.dropWhile_sublist _).subset h1
      · exact (List.takeWhile_sublist _).subset h1
  have hfit : fits 0 x = true := by
    unfold firstFit at hff
    exact List.find?_some hff
  have hx0 : x.alloc = 0 := ((fits_iff 0 x).1 hfit).1
  obtain ⟨l1, l2, rfl⟩ := List.append_of_mem hmem
  obtain ⟨m2, hm2, hrep2, -, hbf, -, -, -, -⟩ := carve_rep hinv.rep (Nat.zero_le x.size)
  rw [hm2] at hc
  cases hc
  have hblk := blocks_of_rep hrep2
  have hfr : m.brk ∉ addrs (l1 ++ x :: l2) := fun hm => Nat.lt_irrefl _ (hinv.rep.fresh _ hm)
  refine ⟨l1, x, l2, blocks_of_rep hinv.rep, hff, hx0, rfl, by simpa using hbf, ?_⟩
  unfold carveList at hblk
  by_cases hpos : 0 < x.size
  · left
    simp only [hpos, if_true] at hblk
    have ex : (⟨x.addr, x.size - 0, x.alloc, x.ptr + 0⟩ : Node) = x := by
      cases x
      simp
    rw [ex] at hblk
    refine ⟨hpos, hfr, ?_⟩
    have e : (l1 ++ (⟨m.brk, 0, 1, x.ptr⟩ : Node) :: x :: l2).length =
        (l1 ++ x :: l2).length + 1 := by
      simp
      omega
    rw [← e]
    exact hblk
  · right
    have hz : x.size = 0 := by omega
    simp only [hpos, if_false] at hblk
    rw [hz] at hblk
    refine ⟨hz, ?_⟩
    have e : (l1 ++ (⟨x.addr, 0, 1, x.ptr⟩ : Node) :: l2).length = (l1 ++ x :: l2).length := by
      simp
    rw [← e]
    exact hblk

/-- Claim C10 as amended, on `nextinit(100)` followed by `nextMalloc(0)`. -/
theorem zero_request_served_witness :
    ∃ l1 x l2, blocks (l1 ++ x :: l2).length (fresh 100) = some (l1 ++ x :: l2) ∧
      firstFit 0 (l1 ++ x :: l2) (fresh 100).next = some x ∧ x.alloc = 0 ∧
      some 1000 = some x.ptr ∧ (afterMalloc 1 0 (fresh 100)).bytesFree = (fresh 100).bytesFree ∧
      ((0 < x.size ∧ (fresh 100).brk ∉ addrs (l1 ++ x :: l2) ∧
          blocks ((l1 ++ x :: l2).length + 1) (afterMalloc 1 0 (fresh 100)) =
            some (l1 ++ ⟨(fresh 100).brk, 0, 1, x.ptr⟩ :: x :: l2)) ∨
        (x.size = 0 ∧
          blocks (l1 ++ x :: l2).length (afterMalloc 1 0 (fresh 100)) =
            some (l1 ++ ⟨x.addr, 0, 1, x.ptr⟩ :: l2))) :=
  zero_request_served 1000 100 1 (fresh 100) (afterMalloc 1 0 (fresh 100)) (some 1000)
    (null_fresh 100 (by decide)) rfl

/-- Claim C11 (invalid address), on two pointers that start no block: an
interior pointer after `nextinit(100)`, and the start of a block that a merge
removed. The lookup finds nothing and `nextFree` reads `element->alloc`
through the NULL it got: the call ends in an undefined access, not in a
failure result. -/
theorem free_unknown_address_faults :
    blocks 1 (fresh 100) = some [⟨0, 100, 0, 1000⟩] ∧
      (∀ fuel, nextFree (fuel + 2) 1005 (fresh 100) = .fault) ∧
      blocks 2 (afterFree 4 1000 middleReleased) = some [⟨1, 60, 0, 1000⟩, ⟨0, 40, 1, 1060⟩] ∧
      (∀ fuel, nextFree (fuel + 3) 1030 (afterFree 4 1000 middleReleased) = .fault) := by
  refine ⟨by decide, ?_, by decide, ?_⟩
  · intro fuel
    have h0 : (fresh 100).heap 0 = some ⟨100, 0, 1000, none, none⟩ := by decide
    have ht : (fresh 100).tail = some 0 := by decide
    revert h0 ht
    generalize fresh 100 = m
    intro h0 ht
    simp [nextFree, findByAddress, h0, ht, deref]
  · intro fuel
    have h1 : (afterFree 4 1000 middleReleased).heap 1 = some ⟨60, 0, 1000, none, some 0⟩ := by
      decide
    have h0 : (afterFree 4 1000 middleReleased).heap 0 = some ⟨40, 1, 1060, some 1, none⟩ := by
      decide
    have ht : (afterFree 4 1000 middleReleased).tail = some 1 := by decide
    revert h0 h1 ht
    generalize afterFree 4 1000 middleReleased = m
    intro h0 h1 ht
    simp [nextFree, findByAddress, h0, h1, ht, deref]

/-- Claim C13 fails on the code: after `nextinit(100); nextMalloc(0);
nextMalloc(100)` two allocated blocks start at 1000, one of size 0 and one of
100 bytes, and `nextFree(1000)` cannot do for both what the claim says.
Whichever of the two nodes the lookup returns, `freeElement` releases that one
only: on the block of size 0 the block of 100 bytes stays allocated and
`bytesFree` stays 0; on the block of 100 bytes the block of size 0 stays
allocated. The two lists the claim asks for, one for each block, differ. For
the lookup that scans from `tail`, the first case is the outcome. -/
theorem release_misses_block :
    blocks 2 zeroThenFull = some [⟨1, 0, 1, 1000⟩, ⟨0, 100, 1, 1000⟩] ∧
      zeroThenFull.bytesFree = 0 ∧
      (∃ m1, freeElement 1 zeroThenFull = .ok m1 ∧
        blocks 2 m1 = some [⟨1, 0, 0, 1000⟩, ⟨0, 100, 1, 1000⟩] ∧ m1.bytesFree = 0) ∧
      (∃ m1, freeElement 0 zeroThenFull = .ok m1 ∧
        blocks 2 m1 = some [⟨1, 0, 1, 1000⟩, ⟨0, 100, 0, 1000⟩] ∧ m1.bytesFree = 100) ∧
      coalesce [] ⟨1, 0, 1, 1000⟩ [⟨0, 100, 1, 1000⟩] =
        [⟨1, 0, 0, 1000⟩, ⟨0, 100, 1, 1000⟩] ∧
      coalesce [⟨1, 0, 1, 1000⟩] ⟨0, 100, 1, 1000⟩ [] =
        [⟨1, 0, 1, 1000⟩, ⟨0, 100, 0, 1000⟩] ∧
      nextFree 3 1000 zeroThenFull = freeElement 1 zeroThenFull := by
  refine ⟨by decide, by decide, ⟨afterFree 3 1000 zeroThenFull, rfl, by decide, by decide⟩,
    ⟨_, rfl, by decide, by decide⟩, by decide, by decide, rfl⟩

/-- Claim C13 as amended. In every state reached from a node cell with NULL
links, for every allocated block `b` that is the only block of the list
starting at its address, `nextFree` on that address returns and yields the
previous list in which `b`, its successor if free and its predecessor if free
are replaced by one free block, at the lowest of their offsets and of the sum
of their sizes, every other block unchanged; `bytesFree` grows by the size of
`b`. Likewise, after `nextinit(100)`, three allocations of 30, 30 and 40 bytes
and the release of the second, releasing the first gives
`[60 free][40 allocated]` and `nextMalloc(60)` then returns the pool base. -/
theorem release_coalesces (base n k fuel : Nat) (m : Memory) (l1 l2 : List Node) (b : Node)
    (h : ReachableNull base n m) (hl : blocks k m = some (l1 ++ b :: l2)) (hb : b.alloc ≠ 0)
    (huniq : ∀ y ∈ l1 ++ l2, y.ptr ≠ b.ptr) (hfuel : (l1 ++ b :: l2).length < fuel) :
    (∃ m1, nextFree fuel b.ptr m = .ok m1 ∧
      blocks (coalesce l1 b l2).length m1 = some (coalesce l1 b l2) ∧
      m1.bytesFree = m.bytesFree + b.size) ∧
    (∃ m1 m2, nextFree 4 1000 middleReleased = .ok m1 ∧
      blocks 2 m1 = some [⟨1, 60, 0, 1000⟩, ⟨0, 40, 1, 1060⟩] ∧
      nextMalloc 1 60 m1 = .ok (m2, some 1000)) := by
  constructor
  · obtain ⟨l, hinv⟩ := null_inv h
    have e := blocks_unique hinv.rep hl
    subst e
    obtain ⟨m1, hm1, hinv1, hbf⟩ := release_unique hinv hb huniq hfuel
    exact ⟨m1, hm1, blocks_of_rep hinv1.rep, hbf⟩
  · exact ⟨afterFree 4 1000 middleReleased, afterMalloc 1 60 (afterFree 4 1000 middleReleased),
      rfl, by decide, rfl⟩

/-- Claim C13 as amended, on the release of the first of three blocks whose
successor is free. -/
theorem release_coalesces_witness :
    ∃ m1, nextFree 4 1000 middleReleased = .ok m1 ∧
      blocks 2 m1 = some [⟨1, 60, 0, 1000⟩, ⟨0, 40, 1, 1060⟩] ∧
      m1.bytesFree = middleReleased.bytesFree + 30 :=
  (release_coalesces 1000 100 3 4 middleReleased [] [⟨2, 30, 0, 1030⟩, ⟨0, 40, 1, 1060⟩]
    ⟨1, 30, 1, 1000⟩ null_middleReleased (by decide) (by decide) (by decide) (by decide)).1

/-- Claim C14 (initialisation postcondition), on a re-initialisation:
`nextinit(100)` on the state with three allocated blocks, where `malloc` hands
back the cell of the released first node with its old contents. `nextinit`
sets the size, the flag, the start pointer, `head`, `tail`, the cursor, the
pool and `bytesFree`, and leaves the two links of the node as it found them:
the block keeps a successor pointer, to a released node, and the walk from
`tail` does not end in a one-block list. -/
theorem nextinit_keeps_links :
    threeAllocated.heap 1 = some ⟨30, 1, 1000, none, some 2⟩ ∧
      (nextinit ⟨30, 1, 1000, none, some 2⟩ 2000 100 threeAllocated).heap 3 =
        some ⟨100, 0, 2000, none, some 2⟩ ∧
      (nextinit ⟨30, 1, 1000, none, some 2⟩ 2000 100 threeAllocated).tail = some 3 ∧
      (nextinit ⟨30, 1, 1000, none, some 2⟩ 2000 100 threeAllocated).head = some 3 ∧
      (nextinit ⟨30, 1, 1000, none, some 2⟩ 2000 100 threeAllocated).next = some 3 ∧
      (nextinit ⟨30, 1, 1000, none, some 2⟩ 2000 100 threeAllocated).bytesFree = 100 ∧
      ∀ fuel, blocks fuel (nextinit ⟨30, 1, 1000, none, some 2⟩ 2000 100 threeAllocated) =
        none := by
  refine ⟨by decide, by decide, by decide, by decide, by decide, by decide, ?_⟩
  intro fuel
  have h3 : (nextinit ⟨30, 1, 1000, none, some 2⟩ 2000 100 threeAllocated).heap 3 =
      some ⟨100, 0, 2000, none, some 2⟩ := by decide
  have h2 : (nextinit ⟨30, 1, 1000, none, some 2⟩ 2000 100 threeAllocated).heap 2 = none := by
    decide
  have ht : (nextinit ⟨30, 1, 1000, none, some 2⟩ 2000 100 threeAllocated).tail = some 3 := by
    decide
  revert h3 h2 ht
  generalize nextinit ⟨30, 1, 1000, none, some 2⟩ 2000 100 threeAllocated = m
  intro h3 h2 ht
  rcases fuel with _ | _ | k <;> simp [blocks, walk, h3, h2, ht]

/-- Claim C15 (invalid initial size). `nextinit(0)` returns at once and leaves
the state exactly as it was, whatever that state is; `nextinit(1)` sets up a
pool of one byte with one free block of one byte on which `head`, `tail` and
the cursor stand. The message `nextinit(0)` prints is its only report: the
function has no result value. -/
theorem invalid_initial_size (junk : Element) (base : Nat) (m : Memory) :
    nextinit junk base 0 m = m ∧
      (nextinit junk base 1 m).memStart = some base ∧
      (nextinit junk base 1 m).poolSize = 1 ∧
      (nextinit junk base 1 m).bytesFree = 1 ∧
      (nextinit junk base 1 m).head = some m.brk ∧
      (nextinit junk base 1 m).tail = some m.brk ∧
      (nextinit junk base 1 m).next = some m.brk ∧
      (nextinit junk base 1 m).heap m.brk = some { junk with size := 1, alloc := 0, ptr := base } := by
  obtain ⟨h0, he⟩ := nextinit_eq junk base 1 m (Nat.le_refl 1)
  refine ⟨by simp [nextinit], ?_⟩
  rw [he]
  simp

/-- Claim C16 (cursor liveness), at the state of the claim: the last
`nextFree` merged the block under the cursor into its successor with
`mergeBackwards`, which hands the node back without repointing the cursor, as
`mergeForward` does. The cursor is the address of a released node, not of a
block of the list, and the next search reads through it. -/
theorem cursor_left_dangling :
    Reachable 1000 100 cursorDangling ∧
      blocks 4 cursorDangling =
        some [⟨4, 20, 1, 1000⟩, ⟨2, 40, 0, 1020⟩, ⟨3, 30, 1, 1060⟩, ⟨0, 10, 0, 1090⟩] ∧
      cursorDangling.next = some 1 ∧ cursorDangling.heap 1 = none ∧
      ∀ fuel, nextMalloc (fuel + 1) 5 cursorDangling = .fault := by
  refine ⟨reachable_cursorDangling, by decide, by decide, by decide, ?_⟩
  intro fuel
  have h1 : cursorDangling.heap 1 = none := by decide
  have hn : cursorDangling.next = some 1 := by decide
  have hb : cursorDangling.bytesFree = 50 := by decide
  simp [nextMalloc, scan, h1, hn, hb]

/-- Claim C17 fails on the code: after `nextinit(10)`, `nextMalloc(10)`
allocates the head block and the cursor is NULL, not the tail block. -/
theorem cursor_null_after_head :
    ∃ m1, nextMalloc 1 10 (fresh 10) = .ok (m1, some 1000) ∧
      blocks 1 m1 = some [⟨0, 10, 1, 1000⟩] ∧ m1.tail = some 0 ∧ m1.next = none ∧
      m1.next ≠ m1.tail := by
  refine ⟨afterMalloc 1 10 (fresh 10), rfl, by decide, by decide, by decide, by decide⟩

/-- Claim C17 as amended. In every state reached from a node cell with NULL
links, after every `nextMalloc(r)` that returns a block, the cursor is the
block right after the newly allocated block in list order, and NULL when the
newly allocated block is the head (the next search starts at the tail block
from a NULL cursor); `bytesFree` has gone down by exactly `r`. The newly
allocated block is the new node of a split, placed right before the remainder
of the selected free block `x`, on which the cursor then stands, or `x` itself
when `x` has exactly `r` bytes, and the cursor is then what followed `x`. -/
theorem cursor_after_malloc (base n fuel r : Nat) (m m1 : Memory) (p : Nat)
    (h : ReachableNull base n m) (hm : nextMalloc fuel r m = .ok (m1, some p)) :
    ∃ l1 x l2, blocks (l1 ++ x :: l2).length m = some (l1 ++ x :: l2) ∧ x.alloc = 0 ∧
      p = x.ptr ∧ m1.bytesFree + r = m.bytesFree ∧
      ((r < x.size ∧ m.brk ∉ addrs (l1 ++ x :: l2) ∧
          blocks ((l1 ++ x :: l2).length + 1) m1 =
            some (l1 ++ ⟨m.brk, r, 1, x.ptr⟩ :: ⟨x.addr, x.size - r, 0, x.ptr + r⟩ :: l2) ∧
          m1.next = some x.addr) ∨
        (r = x.size ∧
          blocks (l1 ++ x :: l2).length m1 = some (l1 ++ ⟨x.addr, r, 1, x.ptr⟩ :: l2) ∧
          m1.next = firstAddr l2 none)) := by
  obtain ⟨l, hinv⟩ := null_inv h
  unfold nextMalloc at hm
  by_cases hlt : m.bytesFree < r
  · rw [if_pos hlt] at hm
    cases hm
  · rw [if_neg hlt] at hm
    have hcur : ∀ e, m.next = some e → e ∈ addrs l ∨ m.heap e = none := by
      intro e he
      rcases hinv.cur e he with h1 | h1
      · exact Or.inl h1
      · exact Or.inr h1.1
    obtain ⟨l1, x, l2, rfl, hx0, hle, hc⟩ := scan_ok hinv.rep fuel m.next hcur hm
    obtain ⟨m2, hm2, hrep2, hnext, hbf, -, -, -, -⟩ := carve_rep hinv.rep hle
    rw [hm2] at hc
    cases hc
    have hblk := blocks_of_rep hrep2
    have hfr : m.brk ∉ addrs (l1 ++ x :: l2) := fun hm => Nat.lt_irrefl _ (hinv.rep.fresh _ hm)
    refine ⟨l1, x, l2, blocks_of_rep hinv.rep, hx0, rfl, by omega, ?_⟩
    unfold carveList at hblk
    by_cases hsp : r < x.size
    · left
      simp only [hsp, if_true] at hblk hnext
      rw [hx0] at hblk
      refine ⟨hsp, hfr, ?_, hnext⟩
      have e : (l1 ++ (⟨m.brk, r, 1, x.ptr⟩ : Node) ::
          (⟨x.addr, x.size - r, 0, x.ptr + r⟩ : Node) :: l2).length =
          (l1 ++ x :: l2).length + 1 := by
        simp
        omega
      rw [← e]
      exact hblk
    · right
      have hz : r = x.size := by omega
      simp only [hsp, if_false] at hblk hnext
      rw [← hz] at hblk
      refine ⟨hz, ?_, hnext⟩
      have e : (l1 ++ (⟨x.addr, r, 1, x.ptr⟩ : Node) :: l2).length = (l1 ++ x :: l2).length := by
        simp
      rw [← e]
      exact hblk

/-- Claim C17 as amended, where the search wraps and carves 20 bytes from the
block at the tail. -/
theorem cursor_after_malloc_witness :
    ∃ l1 x l2, blocks (l1 ++ x :: l2).length tailReleased = some (l1 ++ x :: l2) ∧ x.alloc = 0 ∧
      1000 = x.ptr ∧ (afterMalloc 2 20 tailReleased).bytesFree + 20 = tailReleased.bytesFree ∧
      ((20 < x.size ∧ tailReleased.brk ∉ addrs (l1 ++ x :: l2) ∧
          blocks ((l1 ++ x :: l2).length + 1) (afterMalloc 2 20 tailReleased) =
            some (l1 ++ ⟨tailReleased.brk, 20, 1, x.ptr⟩ ::
              ⟨x.addr, x.size - 20, 0, x.ptr + 20⟩ :: l2) ∧
          (afterMalloc 2 20 tailReleased).next = some x.addr) ∨
        (20 = x.size ∧
          blocks (l1 ++ x :: l2).length (afterMalloc 2 20 tailReleased) =
            some (l1 ++ ⟨x.addr, 20, 1, x.ptr⟩ :: l2) ∧
          (afterMalloc 2 20 tailReleased).next = firstAddr l2 none)) :=
  cursor_after_malloc 1000 100 2 20 tailReleased (afterMalloc 2 20 tailReleased) 1000
    null_tailReleased rfl

/-- Claim C18 (split postcondition). For a free block `B` of a well-formed
list and a request `r`: when `B` is larger than `r`, `allocateBlock` returns a
new node, allocated, of size `r`, at the start of `B` and placed right before
`B`, which stays free, starts `r` bytes later and is `r` bytes smaller; `tail`
is the new node exactly when `B` had no predecessor, and the list has one
block more. When `B` has size `r`, `B` is marked allocated in place and
returned, and no node is added. The blocks before and after are unchanged. -/
theorem split_postcondition (m : Memory) (l1 l2 : List Node) (B : Node) (r : Nat)
    (hrep : Rep m (l1 ++ B :: l2)) (hfree : B.alloc = 0) :
    (r < B.size → ∃ m1, allocateBlock B.addr r m = .ok (m1, some m.brk) ∧
      m.brk ∉ addrs (l1 ++ B :: l2) ∧
      blocks (l1.length + l2.length + 2) m1 =
        some (l1 ++ ⟨m.brk, r, 1, B.ptr⟩ :: ⟨B.addr, B.size - r, 0, B.ptr + r⟩ :: l2) ∧
      (m1.tail = some m.brk ↔ l1 = [])) ∧
    (r = B.size → ∃ m1, allocateBlock B.addr r m = .ok (m1, some B.addr) ∧
      blocks (l1.length + l2.length + 1) m1 = some (l1 ++ ⟨B.addr, B.size, 1, B.ptr⟩ :: l2) ∧
      m1.tail = m.tail) := by
  have hfr : m.brk ∉ addrs (l1 ++ B :: l2) := fun hm => Nat.lt_irrefl _ (hrep.fresh _ hm)
  constructor
  · intro hlt
    obtain ⟨m1, hm1, hrep1, -, -, -, -, -, -⟩ := allocateBlock_split hrep hlt
    have hblk := blocks_of_rep hrep1
    rw [hfree] at hblk
    refine ⟨m1, hm1, hfr, ?_, ?_⟩
    · have e : (l1 ++ (⟨m.brk, r, 1, B.ptr⟩ : Node) ::
          (⟨B.addr, B.size - r, 0, B.ptr + r⟩ : Node) :: l2).length =
          l1.length + l2.length + 2 := by
        simp
        omega
      rw [← e]
      exact hblk
    · rw [hrep1.tail]
      rcases l1 with _ | ⟨y, l1⟩
      · simp
      · simp only [List.cons_append, firstAddr_cons, Option.some.injEq]
        constructor
        · intro e
          exact absurd (e ▸ (by simp : y.addr ∈ addrs (y :: l1 ++ B :: l2))) hfr
        · intro e
          cases e
  · intro heq
    obtain ⟨m1, hm1, hrep1, -, -, -, -, -, -⟩ := allocateBlock_exact hrep heq.symm
    have hblk := blocks_of_rep hrep1
    refine ⟨m1, hm1, ?_, ?_⟩
    · have e : (l1 ++ (⟨B.addr, B.size, 1, B.ptr⟩ : Node) :: l2).length =
          l1.length + l2.length + 1 := by
        simp
        omega
      rw [← e]
      exact hblk
    · rw [hrep1.tail, hrep.tail]
      rcases l1 with _ | ⟨y, l1⟩ <;> simp

/-- Claim C18 on the free block of 100 bytes after `nextinit(100)` and a
request of 30 bytes. -/
theorem split_postcondition_witness :
    ∃ m1, allocateBlock 0 30 (fresh 100) = .ok (m1, some 1) ∧
      1 ∉ addrs [(⟨0, 100, 0, 1000⟩ : Node)] ∧
      blocks 2 m1 = some [⟨1, 30, 1, 1000⟩, ⟨0, 70, 0, 1030⟩] ∧
      (m1.tail = some 1 ↔ ([] : List Node) = []) :=
  (split_postcondition (fresh 100) [] [] ⟨0, 100, 0, 1000⟩ 30
    (nextinit_rep zeroed 1000 100 uninit (by decide) rfl rfl).1 rfl).1 (by decide)

/-- Claim C19 (merge order independence). In a well-formed state, for a block
`e` with predecessor `y` and successor `z`, `mergeForward(e)` then
`mergeBackwards(e)` and `mergeBackwards(e)` then `mergeForward(e)` both return
and end in the same state, heap, `head`, `tail` and cursor included: `y`, `e`
and `z` have become one block at the start of `y` whose size is the sum of
the three sizes. -/
theorem merge_order_independent (m : Memory) (l1 l2 : List Node) (y e z : Node)
    (hrep : Rep m (l1 ++ y :: e :: z :: l2)) :
    ∃ m1, (mergeForward e.addr m >>= mergeBackwards e.addr) = .ok m1 ∧
      (mergeBackwards e.addr m >>= mergeForward e.addr) = .ok m1 ∧
      blocks (l1.length + l2.length + 1) m1 =
        some (l1 ++ ⟨e.addr, e.size + y.size + z.size, e.alloc, y.ptr⟩ :: l2) := by
  have hrepF : Rep m ((l1 ++ [y]) ++ e :: z :: l2) := by simpa using hrep
  obtain ⟨ma, hma, hrepa, hna, hbfa, hka⟩ := mergeForward_kept hrepF
  have hrepa1 : Rep ma (l1 ++ y :: ⟨e.addr, e.size + z.size, e.alloc, e.ptr⟩ :: l2) := by
    simpa using hrepa
  obtain ⟨mb, hmb, hrepb, hnb, hbfb, hkb⟩ := mergeBackwards_kept hrepa1
  obtain ⟨mc, hmc, hrepc, hnc, hbfc, hkc⟩ := mergeBackwards_kept hrep
  obtain ⟨md, hmd, hrepd, hnd, hbfd, hkd⟩ := mergeForward_kept hrepc
  have e1 : e.size + z.size + y.size = e.size + y.size + z.size := by omega
  simp only [e1] at hrepb hkb
  have hka1 : Kept m ma (l1 ++ y :: e :: z :: l2)
      (l1 ++ y :: ⟨e.addr, e.size + z.size, e.alloc, e.ptr⟩ :: l2) := by
    simpa using hka
  have hkab := kept_trans hka1 hkb
  have hkcd := kept_trans hkc hkd
  have heq : mb = md := by
    refine kept_unique hrepb hrepd hkab hkcd ?_ ?_
    · rw [hnb, hna, hnd, hnc]
    · rw [hbfb, hbfa, hbfd, hbfc]
  refine ⟨mb, ?_, ?_, ?_⟩
  · rw [hma]
    exact hmb
  · rw [hmc, heq]
    exact hmd
  · have hblk := blocks_of_rep hrepb
    have e2 : (l1 ++ (⟨e.addr, e.size + y.size + z.size, e.alloc, y.ptr⟩ : Node) :: l2).length =
        l1.length + l2.length + 1 := by
      simp
      omega
    rw [← e2]
    exact hblk

/-- Claim C19 on three allocated blocks of 30, 30 and 40 bytes, merged around
the middle one. -/
theorem merge_order_independent_witness :
    ∃ m1, (mergeForward 2 threeAllocated >>= mergeBackwards 2) = .ok m1 ∧
      (mergeBackwards 2 threeAllocated >>= mergeForward 2) = .ok m1 ∧
      blocks 1 m1 = some [⟨2, 100, 1, 1000⟩] :=
  merge_order_independent threeAllocated [] [] ⟨1, 30, 1, 1000⟩ ⟨2, 30, 1, 1030⟩
    ⟨0, 40, 1, 1060⟩ (rep_of_null null_threeAllocated (by decide : blocks 3 _ = _))

/-- Claim C20 fails on the code for `nextFree`: after `nextinit(100);
nextMalloc(0); nextMalloc(100)` two allocated blocks start at 1000, and
`nextFree(1000)` releases one of them, whichever the lookup returns. When it
is the block of size 0, the call on the start address of the block of 100
bytes has changed another allocated block; when it is the block of 100 bytes,
the call on the start address of the block of size 0 has. For the lookup that
scans from `tail` the block of size 0 is the one released. -/
theorem release_changes_other_block :
    blocks 2 zeroThenFull = some [⟨1, 0, 1, 1000⟩, ⟨0, 100, 1, 1000⟩] ∧
      (∃ m1 l, freeElement 1 zeroThenFull = .ok m1 ∧ blocks 2 m1 = some l ∧
        (⟨0, 100, 1, 1000⟩ : Node) ∈ l ∧ (⟨1, 0, 1, 1000⟩ : Node) ∉ l) ∧
      (∃ m1 l, freeElement 0 zeroThenFull = .ok m1 ∧ blocks 2 m1 = some l ∧
        (⟨1, 0, 1, 1000⟩ : Node) ∈ l ∧ (⟨0, 100, 1, 1000⟩ : Node) ∉ l) ∧
      nextFree 3 1000 zeroThenFull = freeElement 1 zeroThenFull := by
  refine ⟨by decide, ⟨afterFree 3 1000 zeroThenFull, [⟨1, 0, 0, 1000⟩, ⟨0, 100, 1, 1000⟩], rfl,
    by decide, by decide, by decide⟩, ?_, rfl⟩
  have h : ∃ m1, freeElement 0 zeroThenFull = .ok m1 ∧
      blocks 2 m1 = some [⟨1, 0, 1, 1000⟩, ⟨0, 100, 0, 1000⟩] := ⟨_, rfl, by decide⟩
  obtain ⟨m1, h1, h2⟩ := h
  exact ⟨m1, _, h1, h2, by decide, by decide⟩

/-- Claim C20 as amended (frame of live allocations). In every state reached
from a node cell with NULL links, a `nextMalloc(r)` that returns a block
leaves every block that was allocated in the list with its address, start,
size and flag; and so does `nextFree` on the start address of an allocated
block `b`, for every allocated block other than `b`, when `b` is the only
block of the list starting at that address. -/
theorem live_allocations_kept (base n k fuel r : Nat) (m : Memory) (l : List Node)
    (h : ReachableNull base n m) (hl : blocks k m = some l) :
    (∀ m1 p, nextMalloc fuel r m = .ok (m1, some p) →
      ∃ l', blocks l'.length m1 = some l' ∧ ∀ y ∈ l, y.alloc ≠ 0 → y ∈ l') ∧
    (∀ l1 b l2, l = l1 ++ b :: l2 → b.alloc ≠ 0 → (∀ y ∈ l1 ++ l2, y.ptr ≠ b.ptr) →
      l.length < fuel →
      ∃ m1 l', nextFree fuel b.ptr m = .ok m1 ∧ blocks l'.length m1 = some l' ∧
        ∀ y ∈ l1 ++ l2, y.alloc ≠ 0 → y ∈ l') := by
  obtain ⟨l0, hinv⟩ := null_inv h
  have e := blocks_unique hinv.rep hl
  subst e
  constructor
  · intro m1 p hm
    unfold nextMalloc at hm
    by_cases hlt : m.bytesFree < r
    · rw [if_pos hlt] at hm
      cases hm
    · rw [if_neg hlt] at hm
      have hcur : ∀ e, m.next = some e → e ∈ addrs l ∨ m.heap e = none := by
        intro e he
        rcases hinv.cur e he with h1 | h1
        · exact Or.inl h1
        · exact Or.inr h1.1
      obtain ⟨l1, x, l2, rfl, hx, hle, hc⟩ := scan_ok hinv.rep fuel m.next hcur hm
      obtain ⟨m2, hm2, hrep2, -, -, -, -, -, -⟩ := carve_rep hinv.rep hle
      rw [hm2] at hc
      cases hc
      exact ⟨_, blocks_of_rep hrep2, carveList_keeps m.brk r l1 l2 x hx⟩
  · intro l1 b l2 hl1 hb huniq hfuel
    subst hl1
    obtain ⟨m1, hm1, hinv1, -⟩ := release_unique hinv hb huniq hfuel
    exact ⟨m1, _, hm1, blocks_of_rep hinv1.rep, coalesce_keeps l1 l2 b⟩

/-- Claim C20 as amended, on the blocks `[30 free][30][30][10 free]`:
`nextMalloc(20)` carves from the block at the tail and the two allocated
blocks stay as they are, and the release of the second block leaves the third
as it is. -/
theorem live_allocations_kept_witness :
    (∃ l', blocks l'.length (afterMalloc 2 20 tailReleased) = some l' ∧
      ∀ y ∈ [(⟨1, 30, 0, 1000⟩ : Node), ⟨2, 30, 1, 1030⟩, ⟨3, 30, 1, 1060⟩, ⟨0, 10, 0, 1090⟩],
        y.alloc ≠ 0 → y ∈ l') ∧
    (∃ m1 l', nextFree 5 1030 tailReleased = .ok m1 ∧ blocks l'.length m1 = some l' ∧
      ∀ y ∈ [(⟨1, 30, 0, 1000⟩ : Node)] ++ [⟨3, 30, 1, 1060⟩, ⟨0, 10, 0, 1090⟩],
        y.alloc ≠ 0 → y ∈ l') :=
  ⟨(live_allocations_kept 1000 100 4 2 20 tailReleased _ null_tailReleased (by decide)).1
      (afterMalloc 2 20 tailReleased) 1000 rfl,
    (live_allocations_kept 1000 100 4 5 20 tailReleased _ null_tailReleased (by decide)).2
      [⟨1, 30, 0, 1000⟩] ⟨2, 30, 1, 1030⟩ [⟨3, 30, 1, 1060⟩, ⟨0, 10, 0, 1090⟩] rfl (by decide)
      (by decide) (by decide)⟩

end NextFit
